import Mathlib

/-!
Verification of the go-pathlib library (`pathlib.go`) against its
natural-language specification.

The library is embedded shallowly: path strings are `List Char`, and every
Go function used by the library (from `strings`, `path/filepath`, `os`) is
modelled at the character/segment level.  The embedding fixes the
non-Windows platform (`runtime.GOOS != "windows"`), so the path separator
is `'/'` and the whitespace-escaping branches of `cleanPathString` and
`String()` are active, exactly as in the library's tested configuration.

Filesystem-dependent operations (`os.Stat`, `filepath.Glob`) are modelled
by passing the outcome of the underlying call as an explicit parameter.
-/

set_option linter.unusedVariables false

namespace GoPathlib

/-- Model of Go's `unicode.IsSpace` (the `White_Space` property), used by
`strings.TrimSpace`. -/
def goIsSpace (c : Char) : Bool :=
  let n := c.toNat
  (0x9 ≤ n && n ≤ 0xD) || n = 0x20 || n = 0x85 || n = 0xA0 || n = 0x1680 ||
  (0x2000 ≤ n && n ≤ 0x200A) || n = 0x2028 || n = 0x2029 || n = 0x202F ||
  n = 0x205F || n = 0x3000

/-- Model of Go's `strings.TrimSpace`: drop Unicode whitespace from both
ends of the string. -/
def trimSpace (s : List Char) : List Char :=
  ((s.dropWhile goIsSpace).reverse.dropWhile goIsSpace).reverse

/-- Model of Go's `strings.Trim(s, cutset)` for a one-character cutset:
drop copies of `c` from both ends. -/
def trimCharList (c : Char) (s : List Char) : List Char :=
  ((s.dropWhile (· = c)).reverse.dropWhile (· = c)).reverse

/-- Model of Go's `strings.ReplaceAll(s, "\\ ", " ")` (used by
`cleanPathString` on non-Windows): replace each escaped-space pair by a
literal space, scanning left to right. -/
def unescapeSpaces : List Char → List Char
  | [] => []
  | [c] => [c]
  | c₁ :: c₂ :: rest =>
    if c₁ = '\\' ∧ c₂ = ' ' then ' ' :: unescapeSpaces rest
    else c₁ :: unescapeSpaces (c₂ :: rest)

/-- Model of Go's `strings.ReplaceAll(s, old, new)` for one-character `old`
and `new` (used for the backslash-to-separator replacement). -/
def replaceChar (a b : Char) : List Char → List Char
  | [] => []
  | c :: rest => (if c = a then b else c) :: replaceChar a b rest

/-- Model of Go's `strings.ReplaceAll(s, " ", "\\ ")` (used by
`Path.String` on non-Windows): escape each literal space. -/
def escapeSpaces : List Char → List Char
  | [] => []
  | c :: rest => (if c = ' ' then ['\\', ' '] else [c]) ++ escapeSpaces rest

/-- Model of Go's `strings.Split(s, sep)` for a one-character separator:
split on every occurrence of `c`; the result is never empty and splitting
the empty string yields `[[]]`, as in Go. -/
def splitOnChar (c : Char) : List Char → List (List Char)
  | [] => [[]]
  | a :: as =>
    let r := splitOnChar c as
    if a = c then [] :: r else (a :: r.headI) :: r.tail

/-- Model of Go's `strings.Join(elems, sep)` for a one-character separator. -/
def joinSep (c : Char) : List (List Char) → List Char
  | [] => []
  | [x] => x
  | x :: y :: rest => x ++ c :: joinSep c (y :: rest)

/-- The segment-processing loop of Go's `filepath.Clean` (the Plan 9
lexical cleaning algorithm), reformulated on the list of `'/'`-separated
segments: empty and `"."` segments are dropped; a `".."` segment pops the
last retained segment when one is available, is dropped at an absolute
root, and is retained when a relative path has nothing left to pop. -/
def cleanSegsAux (rooted : Bool) : List (List Char) → List (List Char) → List (List Char)
  | [], acc => acc
  | seg :: rest, acc =>
    if seg = [] ∨ seg = ['.'] then cleanSegsAux rooted rest acc
    else if seg = ['.', '.'] then
      match acc.getLast? with
      | some lastSeg =>
        if rooted then cleanSegsAux rooted rest acc.dropLast
        else if lastSeg = ['.', '.'] then cleanSegsAux rooted rest (acc ++ [seg])
        else cleanSegsAux rooted rest acc.dropLast
      | none =>
        if rooted then cleanSegsAux rooted rest acc
        else cleanSegsAux rooted rest (acc ++ [seg])
    else cleanSegsAux rooted rest (acc ++ [seg])

/-- Rendering step of `filepath.Clean`: re-join the cleaned segments,
restoring the leading separator of a rooted path; an empty result is
`"/"` when rooted and `"."` otherwise. -/
def renderClean (rooted : Bool) (segs : List (List Char)) : List Char :=
  if rooted then '/' :: joinSep '/' segs
  else if segs = [] then ['.']
  else joinSep '/' segs

/-- Model of Go's `filepath.Clean` on Unix: the empty path cleans to `"."`;
otherwise the path is split on `'/'`, the segments are processed by the
Plan 9 algorithm, and the result is re-rendered. -/
def cleanPath : List Char → List Char
  | [] => ['.']
  | a :: as =>
    renderClean (decide (a = '/')) (cleanSegsAux (decide (a = '/')) (splitOnChar '/' (a :: as)) [])

/-- Model of `cleanPathString` from pathlib.go on non-Windows: trim
surrounding whitespace, unescape `"\\ "` to a space, replace remaining
backslashes by the separator, then apply `filepath.Clean`. -/
def cleanPathString (p : List Char) : List Char :=
  cleanPath (replaceChar '\\' '/' (unescapeSpaces (trimSpace p)))

/-- The `Path` struct of pathlib.go: a single canonical path string. -/
structure Path where
  path : List Char
deriving DecidableEq, Repr

/-- Model of `NewPath`: clean the input and store it. -/
def NewPath (s : List Char) : Path := ⟨cleanPathString s⟩

/-- Model of Go's `filepath.Base` on Unix: strip trailing separators, keep
everything after the last separator; an empty input gives `"."` and an
all-separator input gives `"/"`. -/
def filepathBase (s : List Char) : List Char :=
  if s = [] then ['.']
  else if ((s.reverse.dropWhile (· = '/')).takeWhile (· ≠ '/')).reverse = [] then ['/']
  else ((s.reverse.dropWhile (· = '/')).takeWhile (· ≠ '/')).reverse

/-- Model of Go's `filepath.Dir` on Unix: everything up to and including
the final separator, then `Clean` (so a separator-free path has parent
`"."`). -/
def filepathDir (s : List Char) : List Char :=
  cleanPath ((s.reverse.dropWhile (· ≠ '/')).reverse)

/-- Model of Go's `filepath.Ext`: the suffix of the final element starting
at its last dot; empty when the final element has no dot. -/
def filepathExt (s : List Char) : List Char :=
  if (s.reverse.takeWhile (· ≠ '/')).dropWhile (· ≠ '.') = [] then []
  else (((s.reverse.takeWhile (· ≠ '/')).takeWhile (· ≠ '.')) ++ ['.']).reverse

/-- Model of Go's `filepath.Join` on Unix: skip leading empty elements,
join the rest with the separator and `Clean` the result; all-empty input
gives the empty string. -/
def filepathJoin (elems : List (List Char)) : List Char :=
  match elems.dropWhile (· = []) with
  | [] => []
  | es => cleanPath (joinSep '/' es)

/-- Model of `Path.IsAbsolute` (`filepath.IsAbs` on Unix: the path starts
with the separator). -/
def Path.IsAbsolute (p : Path) : Bool := p.path.head? = some '/'

/-- Model of `Path.IsRelative`: the inverse of `IsAbsolute`. -/
def Path.IsRelative (p : Path) : Bool := !p.IsAbsolute

/-- Model of `Path.Parts`: trim separators from both ends and split on the
separator; an empty trimmed string gives no parts. -/
def Path.Parts (p : Path) : List (List Char) :=
  if trimCharList '/' p.path = [] then []
  else splitOnChar '/' (trimCharList '/' p.path)

/-- Model of `Path.Base`. -/
def Path.Base (p : Path) : List Char := filepathBase p.path

/-- Model of `Path.Parent`. -/
def Path.Parent (p : Path) : Path := NewPath (filepathDir p.path)

/-- Model of `Path.Extension`: empty for `"."`, `".."` and the separator;
otherwise the last extension of the base after stripping leading dots. -/
def Path.Extension (p : Path) : List Char :=
  if p.Base = ['.'] ∨ p.Base = ['.', '.'] ∨ p.Base = ['/'] then []
  else filepathExt (p.Base.dropWhile (· = '.'))

/-- Model of `Path.Extensions`: trim dots and separators from the base,
split on dots, drop the first piece, and re-prefix each piece with a dot. -/
def Path.Extensions (p : Path) : List (List Char) :=
  ((splitOnChar '.' (trimCharList '/' (trimCharList '.' p.Base))).tail).map
    (fun e => '.' :: e)

/-- Model of `Path.Stem`: the base without its last extension; `".."` is
its own stem, `"."` and the separator give the empty string. -/
def Path.Stem (p : Path) : List Char :=
  if p.Base = ['.'] ∨ p.Base = ['/'] then []
  else if p.Base = ['.', '.'] then ['.', '.']
  else p.Base.take (p.Base.length - p.Extension.length)

/-- Model of `Path.MinimalStem`: the base without all extensions. -/
def Path.MinimalStem (p : Path) : List Char :=
  if p.Base = ['.'] ∨ p.Base = ['/'] then []
  else p.Base.take (p.Base.length - (p.Extensions.flatten).length)

/-- The loop of `Path.Root` on a relative path: collect parts until (and
including) the first part that is not `".."`. -/
def rootLoop : List (List Char) → List (List Char)
  | [] => []
  | part :: rest => if part = ['.', '.'] then part :: rootLoop rest else [part]

/-- Model of `Path.Root`: on a relative path, join the leading `".."` run
plus the first other part; on an absolute path, return the bare root
unchanged, else the prefix before the first separator, with the separator
substituted when that prefix is empty. -/
def Path.Root (p : Path) : List Char :=
  if p.IsRelative then filepathJoin (rootLoop p.Parts)
  else if p.path = ['/'] then p.path
  else if p.path.takeWhile (· ≠ '/') = [] then ['/']
  else p.path.takeWhile (· ≠ '/')

/-- Model of `Path.String` on non-Windows: the canonical string with every
literal space re-escaped as `"\\ "`. -/
def Path.String (p : Path) : List Char := escapeSpaces p.path

/-- Model of `Path.UnmarshalText`: decode by running the raw text through
`NewPath`. -/
def Path.UnmarshalText (text : List Char) : Path := NewPath text

/-- Model of `Path.MarshalText`: encode as the external form `String()`. -/
def Path.MarshalText (p : Path) : List Char := p.String

/-- Model of `Path.JoinStrings`: join the canonical string with the given
strings via `filepath.Join` and re-clean through `NewPath`. -/
def Path.JoinStrings (p : Path) (paths : List (List Char)) : Path :=
  NewPath (filepathJoin (p.path :: paths))

/-- Model of `Path.Join` on `Path` arguments. -/
def Path.Join (p : Path) (paths : List Path) : Path :=
  NewPath (filepathJoin (p.path :: paths.map Path.path))

/-- Model of `Path.WithName`: replace the final segment. -/
def Path.WithName (p : Path) (name : List Char) : Path :=
  p.Parent.JoinStrings [name]

/-- Model of `Path.Copy`. -/
def Path.Copy (p : Path) : Path := NewPath p.path

/-- Model of `Path.Equals`: canonical string equality. -/
def Path.Equals (p other : Path) : Bool := p.path = other.path

/-- The element sequence traversed by the index loop of Go's
`filepath.Rel` over a cleaned path: the empty string has no elements, the
bare root has a single empty element, and any other cleaned path has
exactly its `'/'`-separated pieces (a leading empty piece for a rooted
path). -/
def relElems (s : List Char) : List (List Char) :=
  if s = [] then []
  else if s = ['/'] then [[]]
  else splitOnChar '/' s

/-- The common-prefix loop of Go's `filepath.Rel`: position both element
lists at their first differing elements. -/
def relStrip : List (List Char) → List (List Char) → List (List Char) × List (List Char)
  | [], ts => ([], ts)
  | b :: bs, [] => (b :: bs, [])
  | b :: bs, t :: ts => if b = t then relStrip bs ts else (b :: bs, t :: ts)

/-- Model of Go's `filepath.Rel(basepath, targpath)` on Unix (volume names
are empty): clean both paths; identical paths give `"."`; a `"."` base is
treated as empty; mixing rooted and unrooted paths fails; otherwise strip
the common element prefix, fail when the first remaining base element is
`".."`, and build `".."` steps for the remaining base elements followed by
the remaining target elements.  `none` models the non-nil error (for which
Go returns the empty string result). -/
def filepathRel (basepath targpath : List Char) : Option (List Char) :=
  let base := cleanPath basepath
  let targ := cleanPath targpath
  if targ = base then some ['.']
  else
    let base2 := if base = ['.'] then [] else base
    if (base2.head? = some '/') ≠ (targ.head? = some '/') then none
    else
      let rests := relStrip (relElems base2) (relElems targ)
      if rests.1.head? = some ['.', '.'] then none
      else if rests.1 = [] then some (joinSep '/' rests.2)
      else some (joinSep '/' (List.replicate rests.1.length ['.', '.'] ++ rests.2))

/-- Model of `Path.RelativeTo`: `filepath.Rel(o.path, p.path)` wrapped in
`NewPath`; the Boolean is `true` exactly when Go's error is non-nil, in
which case the wrapped string is Go's empty error result. -/
def Path.RelativeTo (p o : Path) : Path × Bool :=
  match filepathRel o.path p.path with
  | some rp => (NewPath rp, false)
  | none => (NewPath [], true)

/-- Outcome of the single `os.Stat` call made by `pathCheck`: success
carries the `IsDir` bit of the `FileInfo`; a failing stat carries either a
not-found error or any other error, and yields a nil `FileInfo`. -/
inductive StatOutcome where
  | found (isDir : Bool)
  | errNotExist
  | errOther
deriving DecidableEq, Repr

/-- The `pathCheckNoExist` constant of pathlib.go. -/
def pathCheckNoExist : Nat := 0

/-- The `pathCheckFile` constant of pathlib.go. -/
def pathCheckFile : Nat := 1

/-- The `pathCheckDir` constant of pathlib.go. -/
def pathCheckDir : Nat := 2

/-- Model of `pathCheck`: classify the stat outcome for `p.path`.  A
not-found error returns `pathCheckNoExist` directly; any other error also
falls through to the nil-`FileInfo` check and returns `pathCheckNoExist`;
otherwise the `IsDir` bit selects directory or file.  The filesystem is
passed as the map `fs` from path strings to stat outcomes. -/
def pathCheck (fs : List Char → StatOutcome) (p : Path) : Nat :=
  match fs p.path with
  | .errNotExist => pathCheckNoExist
  | .errOther => pathCheckNoExist
  | .found isDir => if isDir then pathCheckDir else pathCheckFile

/-- Model of `Path.IsFile`. -/
def Path.IsFile (fs : List Char → StatOutcome) (p : Path) : Bool :=
  pathCheck fs p = pathCheckFile

/-- Model of `Path.IsDir`. -/
def Path.IsDir (fs : List Char → StatOutcome) (p : Path) : Bool :=
  pathCheck fs p = pathCheckDir

/-- Model of `Path.Exists`. -/
def Path.Exists (fs : List Char → StatOutcome) (p : Path) : Bool :=
  pathCheck fs p ≠ pathCheckNoExist

/-- The errors produced by `nativeGlob` and `Glob`. -/
inductive GlobErr where
  | emptyPattern
  | notExist
  | notDir
  | badPattern
deriving DecidableEq, Repr

/-- Model of `nativeGlob`: a blank pattern, a non-existing receiver, or a
non-directory receiver fail before any matching; otherwise the call
delegates to `filepath.Glob` on the joined pattern, whose outcome is
passed as `globFs` (`none` modelling `ErrBadPattern`). -/
def nativeGlob (fs : List Char → StatOutcome)
    (globFs : List Char → Option (List (List Char)))
    (p : Path) (pattern : List Char) : Except GlobErr (List (List Char)) :=
  if trimSpace pattern = [] then .error .emptyPattern
  else if Path.Exists fs p = false then .error .notExist
  else if Path.IsDir fs p = false then .error .notDir
  else
    match globFs (filepathJoin [p.path, pattern]) with
    | none => .error .badPattern
    | some ms => .ok ms

/-- Model of `Path.Glob`: wrap `nativeGlob` and convert each match with
`NewPath`. -/
def Path.Glob (fs : List Char → StatOutcome)
    (globFs : List Char → Option (List (List Char)))
    (p : Path) (pattern : List Char) : Except GlobErr (List Path) :=
  match nativeGlob fs globFs p pattern with
  | .error e => .error e
  | .ok ms => .ok (ms.map NewPath)

/-- A well-formed cleaned segment: nonempty, not the `"."` segment, and
free of the separator character. -/
def segOK (seg : List Char) : Prop :=
  seg ≠ [] ∧ seg ≠ ['.'] ∧ '/' ∉ seg

/-- Ordering relation between cleaned segments: a `".."` segment may only
be preceded by `".."` segments. -/
def ddR (a b : List Char) : Prop := b = ['.', '.'] → a = ['.', '.']

/-- Invariant of the segment list produced by `filepath.Clean`: all
segments well formed, `".."` segments only in a leading run, and no `".."`
segments at all in a rooted path. -/
def segsInv (rooted : Bool) (segs : List (List Char)) : Prop :=
  (∀ seg ∈ segs, segOK seg) ∧ segs.Pairwise ddR ∧
  (rooted = true → ∀ seg ∈ segs, seg ≠ ['.', '.'])

/-! ### Generic helper lemmas -/

theorem dropWhile_eq_self_of_head {α : Type} (p : α → Bool) (l : List α)
    (h : ∀ a, l.head? = some a → p a = false) : l.dropWhile p = l := by
  cases l with
  | nil => rfl
  | cons a as =>
    rw [List.dropWhile_cons, h a rfl]
    simp

theorem dropWhile_append_all {α : Type} (p : α → Bool) (l₁ l₂ : List α)
    (h : ∀ a ∈ l₁, p a = true) : (l₁ ++ l₂).dropWhile p = l₂.dropWhile p := by
  induction l₁ with
  | nil => rfl
  | cons a as ih =>
    rw [List.cons_append, List.dropWhile_cons, h a (by simp)]
    simp only [ite_true]
    exact ih (fun a ha => h a (by simp [ha]))

theorem takeWhile_eq_self_of_all {α : Type} (p : α → Bool) (l : List α)
    (h : ∀ a ∈ l, p a = true) : l.takeWhile p = l := by
  induction l with
  | nil => rfl
  | cons a as ih =>
    rw [List.takeWhile_cons, h a (by simp)]
    simp only [ite_true]
    rw [ih (fun a ha => h a (by simp [ha]))]

theorem takeWhile_append_cons {α : Type} (p : α → Bool) (l₁ l₂ : List α) (c : α)
    (h : ∀ a ∈ l₁, p a = true) (hc : p c = false) :
    (l₁ ++ c :: l₂).takeWhile p = l₁ := by
  induction l₁ with
  | nil => simp [List.takeWhile_cons, hc]
  | cons a as ih =>
    rw [List.cons_append, List.takeWhile_cons, h a (by simp)]
    simp only [ite_true]
    rw [ih (fun a ha => h a (by simp [ha]))]

theorem dropWhile_append_cons {α : Type} (p : α → Bool) (l₁ l₂ : List α) (c : α)
    (h : ∀ a ∈ l₁, p a = true) (hc : p c = false) :
    (l₁ ++ c :: l₂).dropWhile p = c :: l₂ := by
  rw [dropWhile_append_all p l₁ (c :: l₂) h, List.dropWhile_cons, hc]
  simp

theorem getLast?_mem' {α : Type} (l : List α) (a : α) (h : l.getLast? = some a) :
    a ∈ l := by
  induction l with
  | nil => simp at h
  | cons x xs ih =>
    cases xs with
    | nil => simp at h; simp [h]
    | cons y ys =>
      rw [List.getLast?_cons_cons] at h
      exact List.mem_cons_of_mem x (ih h)

/-! ### Lemmas about `splitOnChar` and `joinSep` -/

theorem splitOnChar_ne_nil (c : Char) (s : List Char) : splitOnChar c s ≠ [] := by
  cases s with
  | nil => simp [splitOnChar]
  | cons a as =>
    simp only [splitOnChar]
    split <;> simp

theorem splitOnChar_no_sep (c : Char) (s : List Char) (h : c ∉ s) :
    splitOnChar c s = [s] := by
  induction s with
  | nil => rfl
  | cons a as ih =>
    have ha : a ≠ c := fun hac => h (by simp [hac])
    have has : c ∉ as := fun hc => h (List.mem_cons_of_mem a hc)
    simp only [splitOnChar, if_neg ha, ih has]
    rfl

theorem splitOnChar_append_sep (c : Char) (x t : List Char) (hx : c ∉ x) :
    splitOnChar c (x ++ c :: t) = x :: splitOnChar c t := by
  induction x with
  | nil => simp [splitOnChar]
  | cons a as ih =>
    have ha : a ≠ c := fun hac => hx (by simp [hac])
    have has : c ∉ as := fun hc => hx (List.mem_cons_of_mem a hc)
    rw [List.cons_append]
    simp only [splitOnChar, if_neg ha, ih has]
    rfl

theorem splitOnChar_joinSep (c : Char) (segs : List (List Char))
    (hne : segs ≠ []) (h : ∀ s ∈ segs, c ∉ s) :
    splitOnChar c (joinSep c segs) = segs := by
  induction segs with
  | nil => exact absurd rfl hne
  | cons x xs ih =>
    cases xs with
    | nil => exact splitOnChar_no_sep c x (h x (by simp))
    | cons y ys =>
      rw [show joinSep c (x :: y :: ys) = x ++ c :: joinSep c (y :: ys) from rfl]
      rw [splitOnChar_append_sep c x _ (h x (by simp))]
      rw [ih (by simp) (fun s hs => h s (List.mem_cons_of_mem x hs))]

theorem splitOnChar_joinSep_sep (c : Char) (segs : List (List Char))
    (hne : segs ≠ []) (h : ∀ s ∈ segs, c ∉ s) :
    splitOnChar c (joinSep c segs ++ [c]) = segs ++ [[]] := by
  induction segs with
  | nil => exact absurd rfl hne
  | cons x xs ih =>
    cases xs with
    | nil =>
      show splitOnChar c (x ++ c :: []) = [x, []]
      rw [splitOnChar_append_sep c x [] (h x (by simp))]
      rfl
    | cons y ys =>
      rw [show joinSep c (x :: y :: ys) = x ++ c :: joinSep c (y :: ys) from rfl]
      rw [List.cons_append, List.append_assoc, List.cons_append]
      rw [splitOnChar_append_sep c x _ (h x (by simp))]
      rw [ih (by simp) (fun s hs => h s (List.mem_cons_of_mem x hs))]

theorem joinSep_split (c : Char) (s : List Char) :
    joinSep c (splitOnChar c s) = s := by
  induction s with
  | nil => rfl
  | cons a as ih =>
    by_cases hac : a = c
    · subst hac
      simp only [splitOnChar, if_pos rfl]
      have hne := splitOnChar_ne_nil a as
      cases hr : splitOnChar a as with
      | nil => exact absurd hr hne
      | cons t ts =>
        rw [hr] at ih
        show joinSep a ([] :: t :: ts) = a :: as
        rw [show joinSep a ([] :: t :: ts) = [] ++ a :: joinSep a (t :: ts) from rfl]
        rw [← ih]
        rfl
    · simp only [splitOnChar, if_neg hac]
      have hne := splitOnChar_ne_nil c as
      cases hr : splitOnChar c as with
      | nil => exact absurd hr hne
      | cons t ts =>
        rw [hr] at ih
        cases ts with
        | nil =>
          show joinSep c [a :: t] = a :: as
          show a :: t = a :: as
          have : joinSep c [t] = as := ih
          have ht : t = as := this
          rw [ht]
        | cons u us =>
          show joinSep c ((a :: t) :: u :: us) = a :: as
          rw [show joinSep c ((a :: t) :: u :: us) = (a :: t) ++ c :: joinSep c (u :: us) from rfl]
          have : t ++ c :: joinSep c (u :: us) = as := ih
          rw [List.cons_append, this]

theorem joinSep_ne_nil (c : Char) (x : List Char) (rest : List (List Char))
    (hx : x ≠ []) : joinSep c (x :: rest) ≠ [] := by
  cases rest with
  | nil => exact hx
  | cons y ys =>
    show x ++ c :: joinSep c (y :: ys) ≠ []
    simp

theorem joinSep_head? (c : Char) (x : List Char) (rest : List (List Char))
    (hx : x ≠ []) : (joinSep c (x :: rest)).head? = x.head? := by
  cases rest with
  | nil => rfl
  | cons y ys =>
    show (x ++ c :: joinSep c (y :: ys)).head? = x.head?
    cases x with
    | nil => exact absurd rfl hx
    | cons a as => rfl

theorem joinSep_append_single (c : Char) (init : List (List Char)) (x : List Char)
    (h : init ≠ []) : joinSep c (init ++ [x]) = joinSep c init ++ c :: x := by
  induction init with
  | nil => exact absurd rfl h
  | cons y ys ih =>
    cases ys with
    | nil => rfl
    | cons z zs =>
      show joinSep c (y :: ((z :: zs) ++ [x])) = (y ++ c :: joinSep c (z :: zs)) ++ c :: x
      have hzx : (z :: zs) ++ [x] = z :: (zs ++ [x]) := rfl
      rw [hzx]
      rw [show joinSep c (y :: z :: (zs ++ [x])) = y ++ c :: joinSep c (z :: (zs ++ [x])) from rfl]
      rw [← hzx, ih (by simp)]
      simp

theorem mem_joinSep_of_mem (c : Char) (a : Char) (seg : List Char)
    (segs : List (List Char)) (ha : a ∈ seg) (hseg : seg ∈ segs) :
    a ∈ joinSep c segs := by
  induction segs with
  | nil => simp at hseg
  | cons x xs ih =>
    cases xs with
    | nil =>
      have : seg = x := by simpa using hseg
      subst this
      exact ha
    | cons y ys =>
      show a ∈ x ++ c :: joinSep c (y :: ys)
      rcases List.mem_cons.mp hseg with h | h
      · subst h; exact List.mem_append_left _ ha
      · exact List.mem_append_right _ (List.mem_cons_of_mem c (ih h))

theorem mem_joinSep (c : Char) (a : Char) (segs : List (List Char))
    (ha : a ∈ joinSep c segs) : a = c ∨ ∃ seg ∈ segs, a ∈ seg := by
  induction segs with
  | nil => simp [joinSep] at ha
  | cons x xs ih =>
    cases xs with
    | nil =>
      right
      exact ⟨x, by simp, ha⟩
    | cons y ys =>
      have ha' : a ∈ x ++ c :: joinSep c (y :: ys) := ha
      rcases List.mem_append.mp ha' with h | h
      · right; exact ⟨x, by simp, h⟩
      · rcases List.mem_cons.mp h with h | h
        · left; exact h
        · rcases ih h with h | ⟨seg, hs, has⟩
          · left; exact h
          · right; exact ⟨seg, List.mem_cons_of_mem x hs, has⟩

theorem mem_of_mem_splitOnChar (c : Char) (a : Char) (s : List Char)
    (seg : List Char) (hseg : seg ∈ splitOnChar c s) (ha : a ∈ seg) : a ∈ s := by
  have := mem_joinSep_of_mem c a seg (splitOnChar c s) ha hseg
  rwa [joinSep_split] at this

theorem not_mem_splitOnChar (c : Char) (s : List Char) :
    ∀ seg ∈ splitOnChar c s, c ∉ seg := by
  induction s with
  | nil =>
    intro seg hseg
    simp [splitOnChar] at hseg
    simp [hseg]
  | cons a as ih =>
    intro seg hseg
    by_cases hac : a = c
    · subst hac
      simp only [splitOnChar, if_pos rfl] at hseg
      rcases List.mem_cons.mp hseg with h | h
      · simp [h]
      · exact ih seg h
    · simp only [splitOnChar, if_neg hac] at hseg
      have hne := splitOnChar_ne_nil c as
      cases hr : splitOnChar c as with
      | nil => exact absurd hr hne
      | cons t ts =>
        rw [hr] at hseg
        simp only [List.headI, List.tail] at hseg
        rcases List.mem_cons.mp hseg with h | h
        · subst h
          intro hmem
          rcases List.mem_cons.mp hmem with h | h
          · exact hac h.symm
          · exact ih t (by rw [hr]; simp) h
        · exact ih seg (by rw [hr]; exact List.mem_cons_of_mem t h)

/-! ### Lemmas about `cleanSegsAux` and the cleaned-segment invariant -/

theorem cleanSegsAux_cons (rooted : Bool) (seg : List Char)
    (rest acc : List (List Char)) :
    cleanSegsAux rooted (seg :: rest) acc =
      if seg = [] ∨ seg = ['.'] then cleanSegsAux rooted rest acc
      else if seg = ['.', '.'] then
        match acc.getLast? with
        | some lastSeg =>
          if rooted then cleanSegsAux rooted rest acc.dropLast
          else if lastSeg = ['.', '.'] then cleanSegsAux rooted rest (acc ++ [seg])
          else cleanSegsAux rooted rest acc.dropLast
        | none =>
          if rooted then cleanSegsAux rooted rest acc
          else cleanSegsAux rooted rest (acc ++ [seg])
      else cleanSegsAux rooted rest (acc ++ [seg]) := rfl

theorem segsInv_nil (rooted : Bool) : segsInv rooted [] :=
  ⟨by simp, by simp, by simp⟩

theorem segsInv_push_reg (rooted : Bool) (acc : List (List Char)) (x : List Char)
    (hacc : segsInv rooted acc) (hx : segOK x) (hxdd : x ≠ ['.', '.']) :
    segsInv rooted (acc ++ [x]) := by
  obtain ⟨hok, hpw, hdd⟩ := hacc
  refine ⟨?_, ?_, ?_⟩
  · intro seg hseg
    rcases List.mem_append.mp hseg with h | h
    · exact hok seg h
    · have : seg = x := by simpa using h
      rw [this]; exact hx
  · rw [List.pairwise_append]
    refine ⟨hpw, by simp, ?_⟩
    intro a ha b hb
    have : b = x := by simpa using hb
    rw [this]
    intro hbx
    exact absurd hbx hxdd
  · intro hr seg hseg
    rcases List.mem_append.mp hseg with h | h
    · exact hdd hr seg h
    · have : seg = x := by simpa using h
      rw [this]; exact hxdd

theorem segsInv_push_dd (acc : List (List Char))
    (hacc : segsInv false acc) (hall : ∀ a ∈ acc, a = ['.', '.']) :
    segsInv false (acc ++ [['.', '.']]) := by
  obtain ⟨hok, hpw, _⟩ := hacc
  refine ⟨?_, ?_, by simp⟩
  · intro seg hseg
    rcases List.mem_append.mp hseg with h | h
    · exact hok seg h
    · have : seg = ['.', '.'] := by simpa using h
      rw [this]
      refine ⟨by simp, by simp, by decide⟩
  · rw [List.pairwise_append]
    refine ⟨hpw, by simp, ?_⟩
    intro a ha b hb
    intro _
    exact hall a ha

theorem segsInv_pop (rooted : Bool) (acc : List (List Char))
    (hacc : segsInv rooted acc) : segsInv rooted acc.dropLast := by
  obtain ⟨hok, hpw, hdd⟩ := hacc
  have hsub : acc.dropLast.Sublist acc := List.dropLast_sublist acc
  exact ⟨fun seg hseg => hok seg (hsub.mem hseg), hpw.sublist hsub,
    fun hr seg hseg => hdd hr seg (hsub.mem hseg)⟩

theorem all_dd_of_getLast (l : List (List Char)) (hp : l.Pairwise ddR)
    (hl : l.getLast? = some ['.', '.']) : ∀ a ∈ l, a = ['.', '.'] := by
  induction l with
  | nil => simp at hl
  | cons x xs ih =>
    intro a ha
    obtain ⟨hx, hpxs⟩ := List.pairwise_cons.mp hp
    cases hxs : xs with
    | nil =>
      subst hxs
      simp only [List.getLast?_singleton, Option.some.injEq] at hl
      have : a = x := by simpa using ha
      rw [this, hl]
    | cons y ys =>
      subst hxs
      rw [List.getLast?_cons_cons] at hl
      have hall := ih hpxs hl
      rcases List.mem_cons.mp ha with h | h
      · subst h
        have hlast : (['.', '.'] : List Char) ∈ y :: ys := by
          have := getLast?_mem' (y :: ys) _ hl
          exact this
        exact hx _ hlast rfl
      · exact hall a h

theorem cleanSegsAux_inv (rooted : Bool) (segs : List (List Char)) :
    ∀ acc : List (List Char), (∀ s ∈ segs, '/' ∉ s) → segsInv rooted acc →
      segsInv rooted (cleanSegsAux rooted segs acc) := by
  induction segs with
  | nil => intro acc _ hacc; exact hacc
  | cons seg rest ih =>
    intro acc hseg hacc
    have hseg' : ∀ s ∈ rest, '/' ∉ s := fun s hs => hseg s (List.mem_cons_of_mem _ hs)
    have hsegsep : '/' ∉ seg := hseg seg (by simp)
    by_cases h1 : seg = [] ∨ seg = ['.']
    · rw [cleanSegsAux_cons, if_pos h1]
      exact ih acc hseg' hacc
    · push_neg at h1
      by_cases h2 : seg = ['.', '.']
      · rw [cleanSegsAux_cons, if_neg (by push_neg; exact h1), if_pos h2]
        cases hl : acc.getLast? with
        | none =>
          cases rooted with
          | true =>
            simp only [if_true]
            exact ih acc hseg' hacc
          | false =>
            simp only [Bool.false_eq_true, if_false]
            have haccnil : acc = [] := by
              cases acc with
              | nil => rfl
              | cons z zs => rw [List.getLast?_eq_getLast _ (by simp)] at hl; simp at hl
            subst haccnil
            subst h2
            exact ih _ hseg' (segsInv_push_dd [] hacc (by simp))
        | some lastSeg =>
          cases rooted with
          | true =>
            simp only [if_true]
            exact ih _ hseg' (segsInv_pop _ _ hacc)
          | false =>
            simp only [Bool.false_eq_true, if_false]
            by_cases h3 : lastSeg = ['.', '.']
            · rw [if_pos h3]
              subst h2
              refine ih _ hseg' (segsInv_push_dd acc hacc ?_)
              exact all_dd_of_getLast acc hacc.2.1 (h3 ▸ hl)
            · rw [if_neg h3]
              exact ih _ hseg' (segsInv_pop _ _ hacc)
      · rw [cleanSegsAux_cons, if_neg (by push_neg; exact h1), if_neg h2]
        exact ih _ hseg' (segsInv_push_reg rooted acc seg hacc ⟨h1.1, h1.2, hsegsep⟩ h2)

theorem cleanSegsAux_fixed (rooted : Bool) (segs : List (List Char)) :
    ∀ acc : List (List Char), segsInv rooted (acc ++ segs) →
      cleanSegsAux rooted segs acc = acc ++ segs := by
  induction segs with
  | nil => intro acc _; simp [cleanSegsAux]
  | cons seg rest ih =>
    intro acc h
    obtain ⟨hok, hpw, hdd⟩ := h
    have hsegok : segOK seg := hok seg (by simp)
    have h1 : ¬(seg = [] ∨ seg = ['.']) := by
      rintro (h' | h')
      · exact hsegok.1 h'
      · exact hsegok.2.1 h'
    have hstep : cleanSegsAux rooted rest (acc ++ [seg]) = acc ++ seg :: rest := by
      have heq : (acc ++ [seg]) ++ rest = acc ++ seg :: rest := by simp
      rw [← heq]
      exact ih (acc ++ [seg]) (by rw [heq]; exact ⟨hok, hpw, hdd⟩)
    rw [cleanSegsAux_cons, if_neg h1]
    by_cases h2 : seg = ['.', '.']
    · rw [if_pos h2]
      have hrF : rooted = false := by
        cases rooted with
        | false => rfl
        | true => exact absurd (h2 ▸ rfl) (hdd rfl seg (by simp))
      subst hrF
      cases hl : acc.getLast? with
      | none =>
        simp only [Bool.false_eq_true, if_false]
        exact hstep
      | some lastSeg =>
        simp only [Bool.false_eq_true, if_false]
        have hmem : lastSeg ∈ acc := getLast?_mem' acc lastSeg hl
        have hldd : lastSeg = ['.', '.'] := by
          have := (List.pairwise_append.mp hpw).2.2 lastSeg hmem seg (by simp)
          exact this h2
        rw [if_pos hldd]
        exact hstep
    · rw [if_neg h2]
      exact hstep

/-! ### Structure and idempotence of `cleanPath` -/

theorem cleanPath_structure (s : List Char) :
    ∃ r segs, segsInv r segs ∧ cleanPath s = renderClean r segs := by
  cases s with
  | nil =>
    refine ⟨false, [], segsInv_nil false, ?_⟩
    simp [cleanPath, renderClean]
  | cons a as =>
    refine ⟨decide (a = '/'), cleanSegsAux (decide (a = '/')) (splitOnChar '/' (a :: as)) [],
      ?_, rfl⟩
    exact cleanSegsAux_inv _ _ [] (not_mem_splitOnChar '/' (a :: as)) (segsInv_nil _)

theorem cleanPath_render_fixed (r : Bool) (segs : List (List Char))
    (h : segsInv r segs) : cleanPath (renderClean r segs) = renderClean r segs := by
  have hnosep : ∀ s ∈ segs, '/' ∉ s := fun s hs => (h.1 s hs).2.2
  cases r with
  | true =>
    cases segs with
    | nil => decide
    | cons x xs =>
      have hrender : renderClean true (x :: xs) = '/' :: joinSep '/' (x :: xs) := rfl
      rw [hrender]
      have hsplit : splitOnChar '/' ('/' :: joinSep '/' (x :: xs)) =
          [] :: splitOnChar '/' (joinSep '/' (x :: xs)) := by
        simp [splitOnChar]
      have : cleanPath ('/' :: joinSep '/' (x :: xs)) =
          renderClean true (cleanSegsAux true (splitOnChar '/' ('/' :: joinSep '/' (x :: xs))) []) := rfl
      rw [this, hsplit, splitOnChar_joinSep '/' (x :: xs) (by simp) hnosep]
      rw [cleanSegsAux_cons]
      rw [if_pos (Or.inl rfl)]
      rw [cleanSegsAux_fixed true (x :: xs) [] (by simpa using h)]
      simpa using hrender
  | false =>
    cases segs with
    | nil => decide
    | cons x xs =>
      have hxne : x ≠ [] := (h.1 x (by simp)).1
      have hrender : renderClean false (x :: xs) = joinSep '/' (x :: xs) := by
        simp [renderClean]
      rw [hrender]
      cases hj : joinSep '/' (x :: xs) with
      | nil => exact absurd hj (joinSep_ne_nil '/' x xs hxne)
      | cons b bs =>
        have hb : b ∈ x := by
          have h1 : (joinSep '/' (x :: xs)).head? = x.head? := joinSep_head? '/' x xs hxne
          rw [hj] at h1
          exact List.mem_of_mem_head? (by rw [← h1]; rfl)
        have hbne : b ≠ '/' := fun hb' => hnosep x (by simp) (hb' ▸ hb)
        have hdec : decide (b = '/') = false := decide_eq_false hbne
        have : cleanPath (b :: bs) =
            renderClean (decide (b = '/')) (cleanSegsAux (decide (b = '/')) (splitOnChar '/' (b :: bs)) []) := rfl
        rw [this, hdec, ← hj, splitOnChar_joinSep '/' (x :: xs) (by simp) hnosep]
        rw [cleanSegsAux_fixed false (x :: xs) [] (by simpa using h)]
        simpa using hrender.symm

theorem cleanPath_idem (s : List Char) : cleanPath (cleanPath s) = cleanPath s := by
  obtain ⟨r, segs, hinv, heq⟩ := cleanPath_structure s
  rw [heq, cleanPath_render_fixed r segs hinv]

/-! ### Character preservation and fixpoint lemmas for `cleanPathString` -/

theorem mem_cleanSegsAux (rooted : Bool) (segs : List (List Char)) :
    ∀ acc seg, seg ∈ cleanSegsAux rooted segs acc → seg ∈ acc ∨ seg ∈ segs := by
  induction segs with
  | nil => intro acc seg h; exact Or.inl h
  | cons s rest ih =>
    intro acc seg h
    have hpush : seg ∈ cleanSegsAux rooted rest (acc ++ [s]) → seg ∈ acc ∨ seg ∈ s :: rest := by
      intro h'
      rcases ih _ seg h' with h' | h'
      · rcases List.mem_append.mp h' with h' | h'
        · exact Or.inl h'
        · right; simp at h'; simp [h']
      · right; exact List.mem_cons_of_mem s h'
    have hkeep : seg ∈ cleanSegsAux rooted rest acc → seg ∈ acc ∨ seg ∈ s :: rest := by
      intro h'
      rcases ih _ seg h' with h' | h'
      · exact Or.inl h'
      · right; exact List.mem_cons_of_mem s h'
    have hpop : seg ∈ cleanSegsAux rooted rest acc.dropLast → seg ∈ acc ∨ seg ∈ s :: rest := by
      intro h'
      rcases ih _ seg h' with h' | h'
      · exact Or.inl ((List.dropLast_sublist acc).mem h')
      · right; exact List.mem_cons_of_mem s h'
    rw [cleanSegsAux_cons] at h
    by_cases h1 : s = [] ∨ s = ['.']
    · rw [if_pos h1] at h; exact hkeep h
    · rw [if_neg h1] at h
      by_cases h2 : s = ['.', '.']
      · rw [if_pos h2] at h
        cases hl : acc.getLast? with
        | none =>
          rw [hl] at h
          cases rooted with
          | true => exact hkeep (by simpa using h)
          | false => exact hpush (by simpa using h)
        | some lastSeg =>
          rw [hl] at h
          cases rooted with
          | true => exact hpop (by simpa using h)
          | false =>
            by_cases h3 : lastSeg = ['.', '.']
            · simp only [Bool.false_eq_true, if_false, if_pos h3] at h
              exact hpush h
            · simp only [Bool.false_eq_true, if_false, if_neg h3] at h
              exact hpop h
      · rw [if_neg h2] at h; exact hpush h

theorem mem_renderClean (a : Char) (r : Bool) (segs : List (List Char))
    (ha : a ∈ renderClean r segs) : a = '/' ∨ a = '.' ∨ ∃ seg ∈ segs, a ∈ seg := by
  cases r with
  | true =>
    have ha' : a ∈ '/' :: joinSep '/' segs := ha
    rcases List.mem_cons.mp ha' with h | h
    · exact Or.inl h
    · rcases mem_joinSep '/' a segs h with h | h
      · exact Or.inl h
      · exact Or.inr (Or.inr h)
  | false =>
    by_cases hs : segs = []
    · subst hs
      have : a ∈ ['.'] := ha
      right; left; simpa using this
    · have ha' : a ∈ joinSep '/' segs := by
        have : renderClean false segs = joinSep '/' segs := by simp [renderClean, hs]
        rwa [this] at ha
      rcases mem_joinSep '/' a segs ha' with h | h
      · exact Or.inl h
      · exact Or.inr (Or.inr h)

theorem mem_cleanPath (a : Char) (s : List Char) (ha : a ∈ cleanPath s) :
    a ∈ s ∨ a = '/' ∨ a = '.' := by
  cases s with
  | nil =>
    right; right
    have ha' : a ∈ (['.'] : List Char) := ha
    simpa using ha'
  | cons x xs =>
    have ha' : a ∈ renderClean (decide (x = '/'))
        (cleanSegsAux (decide (x = '/')) (splitOnChar '/' (x :: xs)) []) := ha
    rcases mem_renderClean a _ _ ha' with h | h | ⟨seg, hseg, hamem⟩
    · exact Or.inr (Or.inl h)
    · exact Or.inr (Or.inr h)
    · rcases mem_cleanSegsAux _ _ [] seg hseg with h | h
      · simp at h
      · exact Or.inl (mem_of_mem_splitOnChar '/' a (x :: xs) seg h hamem)

theorem replaceChar_no_old (a b : Char) (s : List Char) (hab : a ≠ b) :
    a ∉ replaceChar a b s := by
  induction s with
  | nil => simp [replaceChar]
  | cons c rest ih =>
    intro h
    have h' : a ∈ (if c = a then b else c) :: replaceChar a b rest := h
    rcases List.mem_cons.mp h' with h' | h'
    · by_cases hc : c = a
      · rw [if_pos hc] at h'; exact hab h'
      · rw [if_neg hc] at h'; exact hc h'.symm
    · exact ih h'

theorem backslash_not_mem_cleanPathString (s : List Char) :
    '\\' ∉ cleanPathString s := by
  intro h
  rcases mem_cleanPath _ _ h with h | h | h
  · exact replaceChar_no_old '\\' '/' _ (by decide) h
  · exact absurd h (by decide)
  · exact absurd h (by decide)

theorem unescapeSpaces_eq_self (s : List Char) (h : '\\' ∉ s) :
    unescapeSpaces s = s := by
  induction s with
  | nil => rfl
  | cons a as ih =>
    cases as with
    | nil => rfl
    | cons a2 rest =>
      have ha : a ≠ '\\' := fun h' => h (by simp [h'])
      rw [show unescapeSpaces (a :: a2 :: rest) =
        if a = '\\' ∧ a2 = ' ' then ' ' :: unescapeSpaces rest
        else a :: unescapeSpaces (a2 :: rest) from rfl]
      rw [if_neg (fun hc => ha hc.1)]
      rw [ih (fun h' => h (List.mem_cons_of_mem a h'))]

theorem replaceChar_eq_self (a b : Char) (s : List Char) (h : a ∉ s) :
    replaceChar a b s = s := by
  induction s with
  | nil => rfl
  | cons c rest ih =>
    have hc : c ≠ a := fun h' => h (by simp [h'])
    show (if c = a then b else c) :: replaceChar a b rest = c :: rest
    rw [if_neg hc, ih (fun h' => h (List.mem_cons_of_mem c h'))]

theorem trimSpace_eq_self (s : List Char)
    (hh : ∀ a, s.head? = some a → goIsSpace a = false)
    (hl : ∀ a, s.getLast? = some a → goIsSpace a = false) : trimSpace s = s := by
  unfold trimSpace
  rw [dropWhile_eq_self_of_head _ _ hh]
  rw [dropWhile_eq_self_of_head _ _ (fun a ha => hl a (by rwa [List.head?_reverse] at ha))]
  exact List.reverse_reverse s

theorem cleanPathString_fixed (t : List Char) (h1 : trimSpace t = t)
    (h2 : '\\' ∉ t) (h3 : cleanPath t = t) : cleanPathString t = t := by
  unfold cleanPathString
  rw [h1, unescapeSpaces_eq_self t h2, replaceChar_eq_self '\\' '/' t h2, h3]

theorem cleanPathString_structure (s : List Char) :
    ∃ r segs, segsInv r segs ∧ cleanPathString s = renderClean r segs :=
  cleanPath_structure _

theorem cleanPath_cleanPathString (s : List Char) :
    cleanPath (cleanPathString s) = cleanPathString s :=
  cleanPath_idem _

/-! ### Lemmas about `escapeSpaces` and `unescapeSpaces` -/

theorem head?_append_left {α : Type} (l₁ l₂ : List α) (h : l₁ ≠ []) :
    (l₁ ++ l₂).head? = l₁.head? := by
  cases l₁ with
  | nil => exact absurd rfl h
  | cons a as => rfl

theorem getLast?_append_right {α : Type} (l₁ l₂ : List α) (h : l₂ ≠ []) :
    (l₁ ++ l₂).getLast? = l₂.getLast? := by
  rw [← List.head?_reverse, ← List.head?_reverse, List.reverse_append]
  exact head?_append_left _ _ (by simpa using h)

theorem escapeSpaces_eq_nil (s : List Char) (h : escapeSpaces s = []) : s = [] := by
  cases s with
  | nil => rfl
  | cons a as =>
    exfalso
    have : escapeSpaces (a :: as) = (if a = ' ' then ['\\', ' '] else [a]) ++ escapeSpaces as := rfl
    rw [this] at h
    by_cases hsp : a = ' ' <;> simp [hsp] at h

theorem escapeSpaces_head? (s : List Char) :
    (escapeSpaces s).head? = s.head?.map (fun a => if a = ' ' then '\\' else a) := by
  cases s with
  | nil => rfl
  | cons a as =>
    have : escapeSpaces (a :: as) = (if a = ' ' then ['\\', ' '] else [a]) ++ escapeSpaces as := rfl
    rw [this]
    by_cases hsp : a = ' ' <;> simp [hsp]

theorem escapeSpaces_getLast? (s : List Char) :
    (escapeSpaces s).getLast? = s.getLast? := by
  induction s with
  | nil => rfl
  | cons a as ih =>
    have hesc : escapeSpaces (a :: as) = (if a = ' ' then ['\\', ' '] else [a]) ++ escapeSpaces as := rfl
    by_cases hnil : as = []
    · subst hnil
      rw [hesc]
      by_cases hsp : a = ' '
      · simp [hsp, escapeSpaces]
      · simp [hsp, escapeSpaces]
    · have hne : escapeSpaces as ≠ [] := fun h => hnil (escapeSpaces_eq_nil as h)
      rw [hesc, getLast?_append_right _ _ hne, ih]
      cases as with
      | nil => exact absurd rfl hnil
      | cons b bs => rw [List.getLast?_cons_cons]

theorem unescape_escape (s : List Char) (h : '\\' ∉ s) :
    unescapeSpaces (escapeSpaces s) = s := by
  induction s with
  | nil => rfl
  | cons a as ih =>
    have ha : a ≠ '\\' := fun h' => h (by simp [h'])
    have has : '\\' ∉ as := fun h' => h (List.mem_cons_of_mem a h')
    by_cases hsp : a = ' '
    · subst hsp
      show unescapeSpaces ('\\' :: ' ' :: escapeSpaces as) = ' ' :: as
      rw [show unescapeSpaces ('\\' :: ' ' :: escapeSpaces as) =
        if ('\\' : Char) = '\\' ∧ (' ' : Char) = ' ' then ' ' :: unescapeSpaces (escapeSpaces as)
        else '\\' :: unescapeSpaces (' ' :: escapeSpaces as) from rfl]
      rw [if_pos ⟨rfl, rfl⟩, ih has]
    · have hstep : escapeSpaces (a :: as) = a :: escapeSpaces as := by
        have : escapeSpaces (a :: as) = (if a = ' ' then ['\\', ' '] else [a]) ++ escapeSpaces as := rfl
        rw [this, if_neg hsp]
        rfl
      rw [hstep]
      cases hesc : escapeSpaces as with
      | nil =>
        rw [escapeSpaces_eq_nil as hesc]
        rfl
      | cons e es =>
        rw [show unescapeSpaces (a :: e :: es) =
          if a = '\\' ∧ e = ' ' then ' ' :: unescapeSpaces es
          else a :: unescapeSpaces (e :: es) from rfl]
        rw [if_neg (fun hc => ha hc.1), ← hesc, ih has]

theorem renderClean_ne_nil (r : Bool) (segs : List (List Char))
    (h : segsInv r segs) : renderClean r segs ≠ [] := by
  cases r with
  | true => exact fun hc => List.noConfusion hc
  | false =>
    cases segs with
    | nil => exact fun hc => List.noConfusion hc
    | cons x xs =>
      have : renderClean false (x :: xs) = joinSep '/' (x :: xs) := by simp [renderClean]
      rw [this]
      exact joinSep_ne_nil '/' x xs (h.1 x (by simp)).1

theorem cleanPathString_ne_nil (s : List Char) : cleanPathString s ≠ [] := by
  obtain ⟨r, segs, hinv, heq⟩ := cleanPathString_structure s
  rw [heq]
  exact renderClean_ne_nil r segs hinv

/-! ### Claim C1: idempotence of normalization -/

/-- Claim C1, counterexample: normalization is not idempotent for all
inputs.  For the input `"./ x"` the first pass cleans away the `"./"`
prefix and leaves the canonical form `" x"`, whose leading space a second
pass trims away, giving `"x"`. -/
theorem c1_counterexample :
    cleanPathString (cleanPathString ['.', '/', ' ', 'x']) ≠
      cleanPathString ['.', '/', ' ', 'x'] := by decide

/-- Claim C1 (amended): normalization is idempotent on every input whose
normalized form carries no surrounding whitespace, i.e. whenever
`TrimSpace` leaves the normalized form unchanged;
`normalize (normalize s) = normalize s` then holds. -/
theorem c1_normalize_idempotent (s : List Char)
    (h : trimSpace (cleanPathString s) = cleanPathString s) :
    cleanPathString (cleanPathString s) = cleanPathString s := by
  have hbs : '\\' ∉ cleanPathString s := backslash_not_mem_cleanPathString s
  exact cleanPathString_fixed _ h hbs (cleanPath_cleanPathString s)

/-- Witness for claim C1 at the concrete input `"a/b/"`. -/
theorem c1_normalize_idempotent_witness :
    trimSpace (cleanPathString ['a', '/', 'b', '/']) = cleanPathString ['a', '/', 'b', '/'] ∧
    cleanPathString (cleanPathString ['a', '/', 'b', '/']) = cleanPathString ['a', '/', 'b', '/'] :=
  ⟨by decide, c1_normalize_idempotent ['a', '/', 'b', '/'] (by decide)⟩

/-! ### Claim C2: serialization round-trip -/

/-- Claim C2, counterexample: the round-trip fails for the Path built from
`"x /."`, whose canonical form is `"x "` (trailing literal space).  Its
external form is `"x\\ "`, and decoding that trims the trailing space
before unescaping, leaving `"x\\"`, which normalizes to `"x"`. -/
theorem c2_counterexample :
    Path.UnmarshalText ((NewPath ['x', ' ', '/', '.']).String) ≠
      NewPath ['x', ' ', '/', '.'] := by decide

/-- Claim C2 (amended): the round-trip laws hold for every Path whose
canonical string does not end with a whitespace character and does not
begin with a whitespace character other than the space itself (a leading
literal space survives because encoding escapes it): decoding the encoded
external form yields an equal Path, and decode-then-encode reproduces the
external form bit-for-bit. -/
theorem c2_roundtrip (s : List Char)
    (hh : ((NewPath s).path.head?.all fun a => !goIsSpace a || a == ' ') = true)
    (hl : ((NewPath s).path.getLast?.all fun a => !goIsSpace a) = true) :
    Path.UnmarshalText ((NewPath s).String) = NewPath s ∧
    (Path.UnmarshalText ((NewPath s).String)).String = (NewPath s).String := by
  have hbs : '\\' ∉ (NewPath s).path := backslash_not_mem_cleanPathString s
  have hcp : cleanPath (NewPath s).path = (NewPath s).path := cleanPath_cleanPathString s
  have htrim : trimSpace (escapeSpaces (NewPath s).path) = escapeSpaces (NewPath s).path := by
    apply trimSpace_eq_self
    · intro a ha
      rw [escapeSpaces_head?] at ha
      cases hh0 : (NewPath s).path.head? with
      | none => rw [hh0] at ha; exact Option.noConfusion ha
      | some b =>
        rw [hh0] at ha
        simp only [Option.map_some'] at ha
        rw [hh0] at hh
        have hpb : (!goIsSpace b || b == ' ') = true := hh
        by_cases hsp : b = ' '
        · rw [if_pos hsp] at ha
          have haeq : a = '\\' := by injection ha with h'; exact h'.symm
          subst haeq
          decide
        · rw [if_neg hsp] at ha
          have haeq : a = b := by injection ha with h'; exact h'.symm
          rw [haeq]
          have hb' : (b == ' ') = false := by simpa using hsp
          rw [hb', Bool.or_false, Bool.not_eq_true'] at hpb
          exact hpb
    · intro a ha
      rw [escapeSpaces_getLast?] at ha
      rw [ha] at hl
      have : (!goIsSpace a) = true := hl
      rwa [Bool.not_eq_true'] at this
  have hkey : cleanPathString (escapeSpaces (NewPath s).path) = (NewPath s).path := by
    unfold cleanPathString
    rw [htrim, unescape_escape _ hbs, replaceChar_eq_self '\\' '/' _ hbs, hcp]
  have h1 : Path.UnmarshalText ((NewPath s).String) = NewPath s := by
    show NewPath (escapeSpaces (NewPath s).path) = NewPath s
    unfold NewPath
    exact congrArg Path.mk hkey
  exact ⟨h1, by rw [h1]⟩

/-- Witness for claim C2 at the concrete input `"a b"` (which contains a
literal space, so the encoding actually escapes). -/
theorem c2_roundtrip_witness :
    ((NewPath ['a', ' ', 'b']).path.head?.all fun a => !goIsSpace a || a == ' ') = true ∧
    ((NewPath ['a', ' ', 'b']).path.getLast?.all fun a => !goIsSpace a) = true ∧
    (Path.UnmarshalText ((NewPath ['a', ' ', 'b']).String) = NewPath ['a', ' ', 'b'] ∧
      (Path.UnmarshalText ((NewPath ['a', ' ', 'b']).String)).String =
        (NewPath ['a', ' ', 'b']).String) :=
  ⟨by decide, by decide, c2_roundtrip ['a', ' ', 'b'] (by decide) (by decide)⟩

/-! ### Lemmas about `filepathBase`, `filepathExt` and the stems -/

theorem take_append_length {α : Type} (A B : List α) : (A ++ B).take A.length = A := by
  induction A with
  | nil => rfl
  | cons a as ih => simp [ih]

theorem take_sub_append {α : Type} (A B : List α) :
    (A ++ B).take ((A ++ B).length - B.length) = A := by
  rw [List.length_append, Nat.add_sub_cancel]
  exact take_append_length A B

theorem dropWhile_head_false {α : Type} (p : α → Bool) (l : List α) (a : α) (t : List α)
    (h : l.dropWhile p = a :: t) : p a = false := by
  induction l with
  | nil => exact absurd h (by simp)
  | cons x xs ih =>
    rw [List.dropWhile_cons] at h
    by_cases hx : p x = true
    · rw [if_pos hx] at h
      exact ih h
    · rw [if_neg hx] at h
      have hax : a = x := (List.cons.injEq _ _ _ _ ▸ h).1.symm
      rw [hax]
      exact Bool.not_eq_true _ ▸ hx

theorem filepathBase_ne_nil (s : List Char) : filepathBase s ≠ [] := by
  unfold filepathBase
  by_cases h0 : s = []
  · rw [if_pos h0]; simp
  · rw [if_neg h0]
    by_cases hb : ((s.reverse.dropWhile (· = '/')).takeWhile (· ≠ '/')).reverse = []
    · rw [if_pos hb]; simp
    · rw [if_neg hb]; exact hb

theorem filepathBase_no_sep (s : List Char) :
    filepathBase s = ['/'] ∨ '/' ∉ filepathBase s := by
  unfold filepathBase
  by_cases h0 : s = []
  · rw [if_pos h0]; right; simp
  · rw [if_neg h0]
    by_cases hb : ((s.reverse.dropWhile (· = '/')).takeWhile (· ≠ '/')).reverse = []
    · rw [if_pos hb]; left; rfl
    · rw [if_neg hb]
      right
      intro hmem
      rw [List.mem_reverse] at hmem
      have := List.mem_takeWhile_imp hmem
      simp at this

theorem filepathExt_decomp (b : List Char) (hsep : '/' ∉ b)
    (hne : filepathExt b ≠ []) : ∃ A, b = A ++ filepathExt b := by
  unfold filepathExt at *
  have hrfull : b.reverse.takeWhile (· ≠ '/') = b.reverse := by
    apply takeWhile_eq_self_of_all
    intro a ha
    rw [List.mem_reverse] at ha
    exact decide_eq_true (fun h' => hsep (h' ▸ ha))
  rw [hrfull] at hne ⊢
  by_cases hdrop : b.reverse.dropWhile (· ≠ '.') = []
  · rw [if_pos hdrop] at hne
    exact absurd rfl hne
  · rw [if_neg hdrop] at hne ⊢
    obtain ⟨d, t, hdt⟩ : ∃ d t, b.reverse.dropWhile (· ≠ '.') = d :: t := by
      cases h' : b.reverse.dropWhile (· ≠ '.') with
      | nil => exact absurd h' hdrop
      | cons d t => exact ⟨d, t, rfl⟩
    have hd : d = '.' := by
      have := dropWhile_head_false _ _ _ _ hdt
      simpa using this
    refine ⟨t.reverse, ?_⟩
    have hsplit : b.reverse = b.reverse.takeWhile (· ≠ '.') ++ ('.' :: t) := by
      conv_lhs => rw [← List.takeWhile_append_dropWhile (p := (· ≠ '.')) (l := b.reverse)]
      rw [hdt, hd]
    have hb : b = (b.reverse.takeWhile (· ≠ '.') ++ ('.' :: t)).reverse := by
      rw [← hsplit, List.reverse_reverse]
    conv_lhs => rw [hb]
    simp [List.reverse_append]

theorem extension_decomp (p : Path) (hne : p.Extension ≠ []) :
    ∃ A, p.Base = A ++ p.Extension := by
  unfold Path.Extension at *
  by_cases hguard : p.Base = ['.'] ∨ p.Base = ['.', '.'] ∨ p.Base = ['/']
  · rw [if_pos hguard] at hne
    exact absurd rfl hne
  · rw [if_neg hguard] at hne ⊢
    push_neg at hguard
    have hsepbase : '/' ∉ p.Base := by
      rcases filepathBase_no_sep p.path with h | h
      · exact absurd h hguard.2.2
      · exact h
    have hsep : '/' ∉ p.Base.dropWhile (· = '.') := by
      intro h
      exact hsepbase ((List.dropWhile_sublist _).mem h)
    obtain ⟨A, hA⟩ := filepathExt_decomp _ hsep hne
    refine ⟨p.Base.takeWhile (· = '.') ++ A, ?_⟩
    conv_lhs => rw [← List.takeWhile_append_dropWhile (p := (· = '.')) (l := p.Base)]
    rw [List.append_assoc, ← hA]

theorem trimCharList_no_right (c : Char) (s : List Char)
    (h : ∀ a, s.getLast? = some a → a ≠ c) :
    trimCharList c s = s.dropWhile (· = c) := by
  unfold trimCharList
  by_cases hd : s.dropWhile (· = c) = []
  · simp [hd]
  · have hgl : (s.dropWhile (· = c)).getLast? = s.getLast? := by
      conv_rhs => rw [← List.takeWhile_append_dropWhile (p := (· = c)) (l := s)]
      rw [getLast?_append_right _ _ hd]
    rw [dropWhile_eq_self_of_head _ _ ?_, List.reverse_reverse]
    intro a ha
    rw [List.head?_reverse, hgl] at ha
    exact decide_eq_false (h a ha)

theorem trimCharList_eq_self (c : Char) (s : List Char) (h : c ∉ s) :
    trimCharList c s = s := by
  unfold trimCharList
  have h1 : s.dropWhile (· = c) = s := by
    apply dropWhile_eq_self_of_head
    intro a ha
    have : a ∈ s := List.mem_of_mem_head? ha
    exact decide_eq_false (fun h' => h (h' ▸ this))
  rw [h1]
  rw [dropWhile_eq_self_of_head _ _ ?_, List.reverse_reverse]
  intro a ha
  rw [List.head?_reverse] at ha
  have : a ∈ s := getLast?_mem' s a ha
  exact decide_eq_false (fun h' => h (h' ▸ this))

theorem joinSep_cons_flatten (c : Char) :
    ∀ (t : List (List Char)) (h : List Char),
      joinSep c (h :: t) = h ++ (t.map (fun x => c :: x)).flatten := by
  intro t
  induction t with
  | nil => intro h; simp [joinSep]
  | cons y ys ih =>
    intro h
    show h ++ c :: joinSep c (y :: ys) = h ++ (((y :: ys).map (fun x => c :: x)).flatten)
    rw [ih y]
    simp

/-! ### Claim C4: extension coherence -/

/-- Claim C4, counterexample: for the Path `"."` (built from the empty
string) the base is `"."` but `MinimalStem` is empty and `Extensions` is
empty, so `MinimalStem() + join(Extensions())` is empty and differs from
`Base()`. -/
theorem c4_counterexample :
    (NewPath []).MinimalStem ++ ((NewPath []).Extensions).flatten ≠
      (NewPath []).Base := by decide

/-- Claim C4 (amended): for every Path value, `Stem() + Extension() =
Base()` whenever `Extension()` is non-empty (unchanged), and
`MinimalStem() + join(Extensions()) = Base()` for every value whose base
is not `"."`, not the bare separator, and does not end with a dot (for a
trailing-dot base such as `"bar.js."` the two-sided dot trim of
`Extensions` breaks the concatenation law as well). -/
theorem c4_extension_coherence (p : Path) :
    (p.Extension ≠ [] → p.Stem ++ p.Extension = p.Base) ∧
    (p.Base ≠ ['.'] → p.Base ≠ ['/'] → p.Base.getLast? ≠ some '.' →
      p.MinimalStem ++ (p.Extensions).flatten = p.Base) := by
  constructor
  · intro hne
    obtain ⟨A, hA⟩ := extension_decomp p hne
    have hdot : p.Base ≠ ['.'] ∧ p.Base ≠ ['.', '.'] ∧ p.Base ≠ ['/'] := by
      unfold Path.Extension at hne
      by_cases hguard : p.Base = ['.'] ∨ p.Base = ['.', '.'] ∨ p.Base = ['/']
      · rw [if_pos hguard] at hne
        exact absurd rfl hne
      · push_neg at hguard
        exact hguard
    have hstem : p.Stem = p.Base.take (p.Base.length - p.Extension.length) := by
      unfold Path.Stem
      rw [if_neg (by rintro (h | h); exact hdot.1 h; exact hdot.2.2 h), if_neg hdot.2.1]
    rw [hstem]
    conv_lhs => rw [hA]
    rw [take_sub_append]
    exact hA.symm
  · intro h1 h2 h3
    have hbne : p.Base ≠ [] := filepathBase_ne_nil p.path
    have hsepbase : '/' ∉ p.Base := by
      rcases filepathBase_no_sep p.path with h | h
      · exact absurd h h2
      · exact h
    have htrim1 : trimCharList '.' p.Base = p.Base.dropWhile (· = '.') := by
      apply trimCharList_no_right
      intro a ha hac
      exact h3 (hac ▸ ha)
    have hcore_ne : p.Base.dropWhile (· = '.') ≠ [] := by
      intro hcore
      have hfull : p.Base.takeWhile (· = '.') = p.Base := by
        conv_rhs => rw [← List.takeWhile_append_dropWhile (p := (· = '.')) (l := p.Base)]
        rw [hcore, List.append_nil]
      cases hgl : p.Base.getLast? with
      | none => exact hbne (by simpa using hgl)
      | some a =>
        have hmem : a ∈ p.Base := getLast?_mem' _ _ hgl
        rw [← hfull] at hmem
        have := List.mem_takeWhile_imp hmem
        simp only [decide_eq_true_eq] at this
        exact h3 (this ▸ hgl)
    have hsepcore : '/' ∉ p.Base.dropWhile (· = '.') := by
      intro h
      exact hsepbase ((List.dropWhile_sublist _).mem h)
    have htrim2 : trimCharList '/' (p.Base.dropWhile (· = '.')) =
        p.Base.dropWhile (· = '.') := trimCharList_eq_self _ _ hsepcore
    obtain ⟨hd, tl, hsp⟩ : ∃ hd tl,
        splitOnChar '.' (p.Base.dropWhile (· = '.')) = hd :: tl := by
      cases h' : splitOnChar '.' (p.Base.dropWhile (· = '.')) with
      | nil => exact absurd h' (splitOnChar_ne_nil _ _)
      | cons hd tl => exact ⟨hd, tl, rfl⟩
    have hjoin : joinSep '.' (hd :: tl) = p.Base.dropWhile (· = '.') := by
      rw [← hsp, joinSep_split]
    have hexts : p.Extensions = tl.map (fun e => '.' :: e) := by
      unfold Path.Extensions
      rw [htrim1, htrim2, hsp]
      rfl
    have hcore_decomp : p.Base.dropWhile (· = '.') =
        hd ++ (tl.map (fun e => '.' :: e)).flatten := by
      rw [← hjoin, joinSep_cons_flatten]
    have hbase_decomp : p.Base =
        (p.Base.takeWhile (· = '.') ++ hd) ++ (tl.map (fun e => '.' :: e)).flatten := by
      conv_lhs => rw [← List.takeWhile_append_dropWhile (p := (· = '.')) (l := p.Base)]
      rw [hcore_decomp, ← List.append_assoc]
    have hms : p.MinimalStem = p.Base.takeWhile (· = '.') ++ hd := by
      unfold Path.MinimalStem
      rw [if_neg (by rintro (h | h); exact h1 h; exact h2 h), hexts]
      conv_lhs => rw [hbase_decomp]
      rw [take_sub_append]
    rw [hms, hexts]
    exact hbase_decomp.symm

/-- Witness for claim C4 at the Path `"foo/bar.js.old"`. -/
theorem c4_extension_coherence_witness :
    ((NewPath ['b', 'a', 'r', '.', 'j', 's', '.', 'o', 'l', 'd']).Extension ≠ [] ∧
      (NewPath ['b', 'a', 'r', '.', 'j', 's', '.', 'o', 'l', 'd']).Stem ++
        (NewPath ['b', 'a', 'r', '.', 'j', 's', '.', 'o', 'l', 'd']).Extension =
        (NewPath ['b', 'a', 'r', '.', 'j', 's', '.', 'o', 'l', 'd']).Base) ∧
    (NewPath ['b', 'a', 'r', '.', 'j', 's', '.', 'o', 'l', 'd']).MinimalStem ++
      ((NewPath ['b', 'a', 'r', '.', 'j', 's', '.', 'o', 'l', 'd']).Extensions).flatten =
      (NewPath ['b', 'a', 'r', '.', 'j', 's', '.', 'o', 'l', 'd']).Base :=
  ⟨⟨by decide, (c4_extension_coherence (NewPath ['b', 'a', 'r', '.', 'j', 's', '.', 'o', 'l', 'd'])).1 (by decide)⟩,
   (c4_extension_coherence (NewPath ['b', 'a', 'r', '.', 'j', 's', '.', 'o', 'l', 'd'])).2
     (by decide) (by decide) (by decide)⟩

/-! ### Claim C6: RelativeTo scenarios -/

/-- Claim C6, counterexample: `RelativeTo` of `a/b` against a base built
from the empty string does not fail; the empty base normalizes to `"."`
and `filepath.Rel(".", "a/b")` succeeds with `"a/b"` and a nil error. -/
theorem c6_counterexample :
    ((NewPath ['a', '/', 'b']).RelativeTo (NewPath [])).2 = false ∧
    ((NewPath ['a', '/', 'b']).RelativeTo (NewPath [])).1 = NewPath ['a', '/', 'b'] := by
  exact ⟨by decide, by decide⟩

/-- Claim C6 (amended): `RelativeTo` of `/a/b` against `/` yields `a/b`
and against `/a` yields `b`, both without error; `RelativeTo` of `a/b`
against a base constructed from the empty string also succeeds, yielding
`a/b` (the empty base normalizes to `"."`). -/
theorem c6_relativeTo_scenarios :
    (NewPath ['/', 'a', '/', 'b']).RelativeTo (NewPath ['/']) =
      (NewPath ['a', '/', 'b'], false) ∧
    (NewPath ['/', 'a', '/', 'b']).RelativeTo (NewPath ['/', 'a']) =
      (NewPath ['b'], false) ∧
    (NewPath ['a', '/', 'b']).RelativeTo (NewPath []) =
      (NewPath ['a', '/', 'b'], false) :=
  ⟨by decide, by decide, by decide⟩

/-! ### Lemmas about `Parts`, `rootLoop` and the canonical rendering -/

theorem trimCharList_eq_self_ends (c : Char) (s : List Char)
    (hh : ∀ a, s.head? = some a → a ≠ c) (hl : ∀ a, s.getLast? = some a → a ≠ c) :
    trimCharList c s = s := by
  unfold trimCharList
  rw [dropWhile_eq_self_of_head _ _ (fun a ha => decide_eq_false (hh a ha))]
  rw [dropWhile_eq_self_of_head _ _ ?_, List.reverse_reverse]
  intro a ha
  rw [List.head?_reverse] at ha
  exact decide_eq_false (hl a ha)

theorem joinSep_getLast?_mem (c : Char) (segs : List (List Char))
    (h : ∀ s ∈ segs, s ≠ []) (hne : segs ≠ []) :
    ∃ s ∈ segs, (joinSep c segs).getLast? = s.getLast? := by
  induction segs with
  | nil => exact absurd rfl hne
  | cons x xs ih =>
    cases xs with
    | nil => exact ⟨x, by simp, rfl⟩
    | cons y ys =>
      obtain ⟨s, hs, heq⟩ := ih (fun s hs => h s (List.mem_cons_of_mem x hs)) (by simp)
      refine ⟨s, List.mem_cons_of_mem x hs, ?_⟩
      show (x ++ c :: joinSep c (y :: ys)).getLast? = s.getLast?
      rw [getLast?_append_right _ _ (by simp)]
      have hj : joinSep c (y :: ys) ≠ [] := joinSep_ne_nil c y ys (h y (by simp))
      have : (c :: joinSep c (y :: ys)).getLast? = (joinSep c (y :: ys)).getLast? := by
        have hrw : c :: joinSep c (y :: ys) = [c] ++ joinSep c (y :: ys) := rfl
        rw [hrw, getLast?_append_right _ _ hj]
      rw [this, heq]

theorem joinSep_getLast?_ne_sep (segs : List (List Char))
    (h : ∀ s ∈ segs, s ≠ [] ∧ '/' ∉ s) (hne : segs ≠ []) :
    ∀ a, (joinSep '/' segs).getLast? = some a → a ≠ '/' := by
  intro a ha hac
  obtain ⟨t, ht, hteq⟩ := joinSep_getLast?_mem '/' segs (fun s hs => (h s hs).1) hne
  rw [hteq] at ha
  exact (h t ht).2 (hac ▸ getLast?_mem' t a ha)

theorem joinSep_head?_ne_sep (segs : List (List Char))
    (h : ∀ s ∈ segs, s ≠ [] ∧ '/' ∉ s) :
    ∀ a, (joinSep '/' segs).head? = some a → a ≠ '/' := by
  intro a ha hac
  cases segs with
  | nil => exact Option.noConfusion ha
  | cons x xs =>
    rw [joinSep_head? '/' x xs (h x (by simp)).1] at ha
    exact (h x (by simp)).2 (hac ▸ List.mem_of_mem_head? ha)

theorem parts_render_false (segs : List (List Char)) (hinv : segsInv false segs)
    (hne : segs ≠ []) : (Path.mk (renderClean false segs)).Parts = segs := by
  have hok : ∀ seg ∈ segs, seg ≠ [] ∧ '/' ∉ seg :=
    fun seg hs => ⟨(hinv.1 seg hs).1, (hinv.1 seg hs).2.2⟩
  have hrc : renderClean false segs = joinSep '/' segs := by
    cases segs with
    | nil => exact absurd rfl hne
    | cons x xs => simp [renderClean]
  have htrim : trimCharList '/' (joinSep '/' segs) = joinSep '/' segs :=
    trimCharList_eq_self_ends '/' _ (joinSep_head?_ne_sep segs hok)
      (joinSep_getLast?_ne_sep segs hok hne)
  have hjne : joinSep '/' segs ≠ [] := by
    cases segs with
    | nil => exact absurd rfl hne
    | cons x xs => exact joinSep_ne_nil '/' x xs (hok x (by simp)).1
  show (if trimCharList '/' (renderClean false segs) = [] then []
    else splitOnChar '/' (trimCharList '/' (renderClean false segs))) = segs
  rw [hrc, htrim, if_neg hjne]
  exact splitOnChar_joinSep '/' segs hne (fun s hs => (hok s hs).2)

theorem parts_render_true (segs : List (List Char)) (hinv : segsInv true segs) :
    (Path.mk (renderClean true segs)).Parts = segs := by
  have hok : ∀ seg ∈ segs, seg ≠ [] ∧ '/' ∉ seg :=
    fun seg hs => ⟨(hinv.1 seg hs).1, (hinv.1 seg hs).2.2⟩
  have hrc : renderClean true segs = '/' :: joinSep '/' segs := rfl
  show (if trimCharList '/' (renderClean true segs) = [] then []
    else splitOnChar '/' (trimCharList '/' (renderClean true segs))) = segs
  rw [hrc]
  have hdrop : ('/' :: joinSep '/' segs).dropWhile (· = '/') =
      (joinSep '/' segs).dropWhile (· = '/') := by
    rw [List.dropWhile_cons]
    simp
  cases segs with
  | nil =>
    have : trimCharList '/' ['/'] = [] := by decide
    rw [show ('/' :: joinSep '/' ([] : List (List Char))) = ['/'] from rfl, this, if_pos rfl]
  | cons x xs =>
    have hjtrim : (joinSep '/' (x :: xs)).dropWhile (· = '/') = joinSep '/' (x :: xs) := by
      apply dropWhile_eq_self_of_head
      intro a ha
      exact decide_eq_false (joinSep_head?_ne_sep (x :: xs) hok a ha)
    have htrim : trimCharList '/' ('/' :: joinSep '/' (x :: xs)) = joinSep '/' (x :: xs) := by
      unfold trimCharList
      rw [hdrop, hjtrim]
      rw [dropWhile_eq_self_of_head _ _ ?_, List.reverse_reverse]
      intro a ha
      rw [List.head?_reverse] at ha
      exact decide_eq_false (joinSep_getLast?_ne_sep (x :: xs) hok (by simp) a ha)
    rw [htrim, if_neg (joinSep_ne_nil '/' x xs (hok x (by simp)).1)]
    exact splitOnChar_joinSep '/' (x :: xs) (by simp) (fun s hs => (hok s hs).2)

theorem rootLoop_eq (l : List (List Char)) :
    rootLoop l = l.takeWhile (· = ['.', '.']) ++ (l.dropWhile (· = ['.', '.'])).take 1 := by
  induction l with
  | nil => rfl
  | cons part rest ih =>
    show (if part = ['.', '.'] then part :: rootLoop rest else [part]) = _
    rw [List.takeWhile_cons, List.dropWhile_cons]
    by_cases h : part = ['.', '.']
    · rw [if_pos h]
      simp only [h, decide_eq_true_eq, if_pos rfl]
      rw [ih]
      rfl
    · rw [if_neg h]
      simp only [decide_eq_true_eq, if_neg h]
      rfl

theorem rootLoop_mem (l : List (List Char)) : ∀ x ∈ rootLoop l, x ∈ l := by
  induction l with
  | nil => intro x hx; exact absurd hx (by simp [rootLoop])
  | cons part rest ih =>
    intro x hx
    by_cases h : part = ['.', '.']
    · rw [show rootLoop (part :: rest) =
        (if part = ['.', '.'] then part :: rootLoop rest else [part]) from rfl, if_pos h] at hx
      rcases List.mem_cons.mp hx with h' | h'
      · simp [h']
      · exact List.mem_cons_of_mem part (ih x h')
    · rw [show rootLoop (part :: rest) =
        (if part = ['.', '.'] then part :: rootLoop rest else [part]) from rfl, if_neg h] at hx
      have : x = part := by simpa using hx
      simp [this]

theorem rootLoop_ne_nil (l : List (List Char)) (h : l ≠ []) : rootLoop l ≠ [] := by
  cases l with
  | nil => exact absurd rfl h
  | cons part rest =>
    show (if part = ['.', '.'] then part :: rootLoop rest else [part]) ≠ []
    by_cases hp : part = ['.', '.'] <;> simp [hp]

theorem pairwise_ddR_of_all_dd (l : List (List Char))
    (h : ∀ a ∈ l, a = ['.', '.']) : l.Pairwise ddR := by
  induction l with
  | nil => exact List.Pairwise.nil
  | cons a rest ih =>
    refine List.Pairwise.cons ?_ (ih (fun b hb => h b (List.mem_cons_of_mem a hb)))
    intro b hb hbdd
    exact h a (by simp)

theorem rootLoop_segsInv (segs : List (List Char)) (hinv : segsInv false segs) :
    segsInv false (rootLoop segs) := by
  refine ⟨fun seg hs => hinv.1 seg (rootLoop_mem segs seg hs), ?_, by simp⟩
  rw [rootLoop_eq]
  rw [List.pairwise_append]
  refine ⟨?_, ?_, ?_⟩
  · apply pairwise_ddR_of_all_dd
    intro a ha
    have := List.mem_takeWhile_imp ha
    simpa using this
  · cases hdw : segs.dropWhile (· = ['.', '.']) with
    | nil => exact List.Pairwise.nil
    | cons z zs =>
      show List.Pairwise ddR ((z :: zs).take 1)
      rw [show (z :: zs).take 1 = [z] from rfl]
      exact List.pairwise_singleton _ _
  · intro a ha b hb hbdd
    have := List.mem_takeWhile_imp ha
    simpa using this

/-! ### Lemmas for the Parent/Base/Join coherence -/

theorem cleanSegsAux_append (rooted : Bool) (xs : List (List Char)) :
    ∀ (ys acc : List (List Char)),
      cleanSegsAux rooted (xs ++ ys) acc = cleanSegsAux rooted ys (cleanSegsAux rooted xs acc) := by
  induction xs with
  | nil => intro ys acc; rfl
  | cons seg rest ih =>
    intro ys acc
    rw [List.cons_append, cleanSegsAux_cons, cleanSegsAux_cons]
    by_cases h1 : seg = [] ∨ seg = ['.']
    · rw [if_pos h1, if_pos h1, ih]
    · rw [if_neg h1, if_neg h1]
      by_cases h2 : seg = ['.', '.']
      · rw [if_pos h2, if_pos h2]
        cases acc.getLast? with
        | none => cases rooted <;> simp only [Bool.false_eq_true, if_false, if_true] <;> rw [ih]
        | some lastSeg =>
          cases rooted with
          | true => simp only [if_true]; rw [ih]
          | false =>
            simp only [Bool.false_eq_true, if_false]
            by_cases h3 : lastSeg = ['.', '.']
            · rw [if_pos h3, if_pos h3, ih]
            · rw [if_neg h3, if_neg h3, ih]
      · rw [if_neg h2, if_neg h2, ih]

theorem splitOnChar_cons_sep (t : List Char) :
    splitOnChar '/' ('/' :: t) = [] :: splitOnChar '/' t := by
  simp [splitOnChar]

theorem cleanPath_rooted (t : List Char) :
    cleanPath ('/' :: t) =
      renderClean true (cleanSegsAux true ([] :: splitOnChar '/' t) []) := by
  show renderClean (decide ('/' = '/')) (cleanSegsAux (decide ('/' = '/'))
    (splitOnChar '/' ('/' :: t)) []) = _
  rw [splitOnChar_cons_sep]
  rfl

theorem cleanPath_not_rooted (a : Char) (t : List Char) (ha : a ≠ '/') :
    cleanPath (a :: t) =
      renderClean false (cleanSegsAux false (splitOnChar '/' (a :: t)) []) := by
  show renderClean (decide (a = '/')) (cleanSegsAux (decide (a = '/'))
    (splitOnChar '/' (a :: t)) []) = _
  rw [decide_eq_false ha]

theorem dropWhile_eq_nil_of_all {α : Type} (p : α → Bool) (l : List α)
    (h : ∀ a ∈ l, p a = true) : l.dropWhile p = [] := by
  have := dropWhile_append_all p l [] h
  simpa using this

theorem filepathBase_no_sep_self (last : List Char) (hne : last ≠ [])
    (hsep : '/' ∉ last) : filepathBase last = last := by
  unfold filepathBase
  have hall : ∀ a ∈ last.reverse, a ≠ '/' := by
    intro a ha hac
    rw [List.mem_reverse] at ha
    exact hsep (hac ▸ ha)
  have hdrop : last.reverse.dropWhile (· = '/') = last.reverse := by
    apply dropWhile_eq_self_of_head
    intro a ha
    exact decide_eq_false (hall a (List.mem_of_mem_head? ha))
  have htake : last.reverse.takeWhile (· ≠ '/') = last.reverse := by
    apply takeWhile_eq_self_of_all
    intro a ha
    exact decide_eq_true (hall a ha)
  rw [if_neg hne, hdrop, htake, List.reverse_reverse, if_neg hne]

theorem filepathBase_append_sep (A last : List Char) (hne : last ≠ [])
    (hsep : '/' ∉ last) : filepathBase (A ++ '/' :: last) = last := by
  unfold filepathBase
  have hs_ne : A ++ '/' :: last ≠ [] := by simp
  have hrev : (A ++ '/' :: last).reverse = last.reverse ++ '/' :: A.reverse := by
    rw [List.reverse_append, List.reverse_cons, List.append_assoc]
    rfl
  have hall : ∀ a ∈ last.reverse, a ≠ '/' := by
    intro a ha hac
    rw [List.mem_reverse] at ha
    exact hsep (hac ▸ ha)
  have hlr : last.reverse ≠ [] := by simpa using hne
  have hdrop : (last.reverse ++ '/' :: A.reverse).dropWhile (· = '/') =
      last.reverse ++ '/' :: A.reverse := by
    apply dropWhile_eq_self_of_head
    intro a ha
    rw [head?_append_left _ _ hlr] at ha
    exact decide_eq_false (hall a (List.mem_of_mem_head? ha))
  have htake : (last.reverse ++ '/' :: A.reverse).takeWhile (· ≠ '/') = last.reverse := by
    apply takeWhile_append_cons
    · intro a ha
      exact decide_eq_true (hall a ha)
    · simp
  rw [if_neg hs_ne, hrev, hdrop, htake, List.reverse_reverse,
    if_neg (by simpa using hne)]

theorem mem_renderClean_of_mem (a : Char) (r : Bool) (segs : List (List Char))
    (seg : List Char) (ha : a ∈ seg) (hs : seg ∈ segs) : a ∈ renderClean r segs := by
  cases r with
  | true => exact List.mem_cons_of_mem '/' (mem_joinSep_of_mem '/' a seg segs ha hs)
  | false =>
    cases segs with
    | nil => exact absurd hs (by simp)
    | cons x xs =>
      have : renderClean false (x :: xs) = joinSep '/' (x :: xs) := by simp [renderClean]
      rw [this]
      exact mem_joinSep_of_mem '/' a seg (x :: xs) ha hs

theorem renderClean_head?_cases (r : Bool) (segs : List (List Char))
    (hok : ∀ seg ∈ segs, seg ≠ []) :
    (renderClean r segs).head? = some '/' ∨
    (renderClean r segs).head? = some '.' ∨
    (∃ x xs, segs = x :: xs ∧ (renderClean r segs).head? = x.head?) := by
  cases r with
  | true => exact Or.inl rfl
  | false =>
    cases segs with
    | nil => exact Or.inr (Or.inl rfl)
    | cons x xs =>
      right; right
      refine ⟨x, xs, rfl, ?_⟩
      have : renderClean false (x :: xs) = joinSep '/' (x :: xs) := by simp [renderClean]
      rw [this]
      exact joinSep_head? '/' x xs (hok x (by simp))

theorem renderClean_getLast?_cases (r : Bool) (segs : List (List Char))
    (hok : ∀ seg ∈ segs, seg ≠ []) :
    (renderClean r segs).getLast? = some '/' ∨
    (renderClean r segs).getLast? = some '.' ∨
    (∃ seg ∈ segs, (renderClean r segs).getLast? = seg.getLast?) := by
  cases hsegs : segs with
  | nil =>
    cases r with
    | true => exact Or.inl rfl
    | false => exact Or.inr (Or.inl rfl)
  | cons x xs =>
    right; right
    have hok' : ∀ s ∈ x :: xs, s ≠ [] := fun s hs => hok s (hsegs ▸ hs)
    obtain ⟨t, ht, hteq⟩ := joinSep_getLast?_mem '/' (x :: xs) hok' (by simp)
    refine ⟨t, ht, ?_⟩
    cases r with
    | true =>
      show ('/' :: joinSep '/' (x :: xs)).getLast? = t.getLast?
      have hj : joinSep '/' (x :: xs) ≠ [] := joinSep_ne_nil '/' x xs (hok' x (by simp))
      have hrw : '/' :: joinSep '/' (x :: xs) = ['/'] ++ joinSep '/' (x :: xs) := rfl
      rw [hrw, getLast?_append_right _ _ hj, hteq]
    | false =>
      have : renderClean false (x :: xs) = joinSep '/' (x :: xs) := by simp [renderClean]
      rw [this, hteq]

theorem cleanPathString_render_fixed (r : Bool) (segs : List (List Char))
    (hinv : segsInv r segs)
    (hbs : ∀ seg ∈ segs, '\\' ∉ seg)
    (hws : ∀ seg ∈ segs, (seg.head?.all fun a => !goIsSpace a) = true ∧
      (seg.getLast?.all fun a => !goIsSpace a) = true) :
    cleanPathString (renderClean r segs) = renderClean r segs := by
  have hok : ∀ seg ∈ segs, seg ≠ [] := fun seg hs => (hinv.1 seg hs).1
  apply cleanPathString_fixed
  · apply trimSpace_eq_self
    · intro a ha
      rcases renderClean_head?_cases r segs hok with h | h | ⟨x, xs, hx, h⟩
      · rw [h] at ha
        have : a = '/' := by injection ha with h'; exact h'.symm
        rw [this]; decide
      · rw [h] at ha
        have : a = '.' := by injection ha with h'; exact h'.symm
        rw [this]; decide
      · rw [h] at ha
        have hxmem : x ∈ segs := by rw [hx]; simp
        have := (hws x hxmem).1
        rw [ha] at this
        have : (!goIsSpace a) = true := this
        rwa [Bool.not_eq_true'] at this
    · intro a ha
      rcases renderClean_getLast?_cases r segs hok with h | h | ⟨t, ht, h⟩
      · rw [h] at ha
        have : a = '/' := by injection ha with h'; exact h'.symm
        rw [this]; decide
      · rw [h] at ha
        have : a = '.' := by injection ha with h'; exact h'.symm
        rw [this]; decide
      · rw [h] at ha
        have := (hws t ht).2
        rw [ha] at this
        have : (!goIsSpace a) = true := this
        rwa [Bool.not_eq_true'] at this
  · intro hmem
    rcases mem_renderClean '\\' r segs hmem with h | h | ⟨seg, hs, has⟩
    · exact absurd h (by decide)
    · exact absurd h (by decide)
    · exact hbs seg hs has
  · exact cleanPath_render_fixed r segs hinv

theorem cleanSegsAux_nil_seg (rooted : Bool) (acc : List (List Char)) :
    cleanSegsAux rooted [[]] acc = acc := by
  rw [cleanSegsAux_cons, if_pos (Or.inl rfl)]
  rfl

theorem cleanSegsAux_skip_head_nil (rooted : Bool) (rest acc : List (List Char)) :
    cleanSegsAux rooted ([] :: rest) acc = cleanSegsAux rooted rest acc := by
  rw [cleanSegsAux_cons, if_pos (Or.inl rfl)]

theorem segsInv_append_left (r : Bool) (init : List (List Char)) (last : List Char)
    (hinv : segsInv r (init ++ [last])) : segsInv r init := by
  have hsub : init.Sublist (init ++ [last]) := by simp
  exact ⟨fun seg hs => hinv.1 seg (hsub.mem hs), hinv.2.1.sublist hsub,
    fun hr seg hs => hinv.2.2 hr seg (hsub.mem hs)⟩

theorem dir_raw_append_sep (A last : List Char) (hne : last ≠ []) (hsep : '/' ∉ last) :
    ((A ++ '/' :: last).reverse.dropWhile (· ≠ '/')).reverse = A ++ ['/'] := by
  have hrev : (A ++ '/' :: last).reverse = last.reverse ++ '/' :: A.reverse := by
    rw [List.reverse_append, List.reverse_cons, List.append_assoc]
    rfl
  rw [hrev, dropWhile_append_cons _ _ _ _ ?_ ?_]
  · rw [List.reverse_cons, List.reverse_reverse]
  · intro a ha
    rw [List.mem_reverse] at ha
    exact decide_eq_true (fun hc => hsep (hc ▸ ha))
  · simp

theorem renderClean_append_rooted (init : List (List Char)) (last : List Char)
    (hin : init ≠ []) :
    renderClean true (init ++ [last]) = ('/' :: joinSep '/' init) ++ '/' :: last := by
  show '/' :: joinSep '/' (init ++ [last]) = _
  rw [joinSep_append_single '/' init last hin]
  rfl

theorem renderClean_append_unrooted (init : List (List Char)) (last : List Char)
    (hin : init ≠ []) :
    renderClean false (init ++ [last]) = joinSep '/' init ++ '/' :: last := by
  have hne : init ++ [last] ≠ [] := by simp
  have h1 : renderClean false (init ++ [last]) = joinSep '/' (init ++ [last]) := by
    simp [renderClean, hne]
  rw [h1]
  exact joinSep_append_single '/' init last hin

theorem filepathDir_render (r : Bool) (init : List (List Char)) (last : List Char)
    (hinv : segsInv r (init ++ [last])) :
    filepathDir (renderClean r (init ++ [last])) = renderClean r init := by
  have hlast_ne : last ≠ [] := (hinv.1 last (by simp)).1
  have hlast_sep : '/' ∉ last := (hinv.1 last (by simp)).2.2
  have hinv_init : segsInv r init := segsInv_append_left r init last hinv
  have hok_init : ∀ seg ∈ init, seg ≠ [] ∧ '/' ∉ seg :=
    fun seg hs => ⟨(hinv_init.1 seg hs).1, (hinv_init.1 seg hs).2.2⟩
  cases r with
  | false =>
    cases hin : init with
    | nil =>
      have hrender : renderClean false ([] ++ [last]) = last := by
        simp [renderClean, joinSep]
      rw [hrender]
      unfold filepathDir
      have hdrop : last.reverse.dropWhile (· ≠ '/') = [] := by
        apply dropWhile_eq_nil_of_all
        intro a ha
        rw [List.mem_reverse] at ha
        exact decide_eq_true (fun hc => hlast_sep (hc ▸ ha))
      rw [hdrop]
      decide
    | cons i is =>
      rw [← hin]
      have hinne : init ≠ [] := by rw [hin]; simp
      rw [renderClean_append_unrooted init last hinne]
      unfold filepathDir
      rw [dir_raw_append_sep _ _ hlast_ne hlast_sep]
      obtain ⟨b, bs, hj⟩ : ∃ b bs, joinSep '/' init = b :: bs := by
        cases h' : joinSep '/' init with
        | nil =>
          exfalso
          rw [hin] at h'
          exact joinSep_ne_nil '/' i is (hok_init i (by rw [hin]; simp)).1 h'
        | cons b bs => exact ⟨b, bs, rfl⟩
      have hb : b ≠ '/' := by
        intro hc
        apply joinSep_head?_ne_sep init hok_init b _ hc
        rw [hj]
        rfl
      have hshape : joinSep '/' init ++ ['/'] = b :: (bs ++ ['/']) := by
        rw [hj]
        rfl
      rw [hshape, cleanPath_not_rooted b _ hb, ← hshape]
      rw [splitOnChar_joinSep_sep '/' init hinne (fun s hs => (hok_init s hs).2)]
      rw [cleanSegsAux_append false init [[]] []]
      rw [cleanSegsAux_fixed false init [] (by simpa using hinv_init)]
      rw [cleanSegsAux_nil_seg]
      simp
  | true =>
    cases hin : init with
    | nil =>
      have hrender : renderClean true ([] ++ [last]) = [] ++ '/' :: last := rfl
      rw [hrender]
      unfold filepathDir
      rw [dir_raw_append_sep [] last hlast_ne hlast_sep]
      decide
    | cons i is =>
      rw [← hin]
      have hinne : init ≠ [] := by rw [hin]; simp
      rw [renderClean_append_rooted init last hinne]
      unfold filepathDir
      rw [dir_raw_append_sep _ _ hlast_ne hlast_sep]
      rw [show ('/' :: joinSep '/' init) ++ ['/'] = '/' :: (joinSep '/' init ++ ['/']) from rfl]
      rw [cleanPath_rooted]
      rw [splitOnChar_joinSep_sep '/' init hinne (fun s hs => (hok_init s hs).2)]
      rw [show ([] :: (init ++ [[]]) : List (List Char)) = ([] :: init) ++ [[]] from rfl]
      rw [cleanSegsAux_append true ([] :: init) [[]] []]
      rw [cleanSegsAux_skip_head_nil true init []]
      rw [cleanSegsAux_fixed true init [] (by simpa using hinv_init)]
      rw [cleanSegsAux_nil_seg]
      simp

/-! ### Claim C3: Root characterization -/

/-- Claim C3, counterexample: `Root()` of the absolute path `/a/b` is the
separator `"/"` alone, not the first segment `"a"` after the leading
separator (the canonical absolute path starts with the separator, so the
prefix before the first separator is empty and the code substitutes the
separator). -/
theorem c3_counterexample :
    (NewPath ['/', 'a', '/', 'b']).IsAbsolute = true ∧
    (NewPath ['/', 'a', '/', 'b']).path ≠ ['/'] ∧
    (NewPath ['/', 'a', '/', 'b']).Root ≠ ['a'] := by
  exact ⟨by decide, by decide, by decide⟩

/-- Claim C3 (amended): for a relative Path, `Root()` returns the leading
run of `".."` segments plus the first non-`".."` segment (if any) joined
with the separator; for an absolute Path, `Root()` always returns the
separator alone (on non-Windows every canonical absolute path starts with
the separator, so the bare root and the general case coincide). -/
theorem c3_root_spec (s : List Char) :
    ((NewPath s).IsRelative = true →
      (NewPath s).Root = joinSep '/' ((NewPath s).Parts.takeWhile (· = ['.', '.']) ++
        ((NewPath s).Parts.dropWhile (· = ['.', '.'])).take 1)) ∧
    ((NewPath s).IsAbsolute = true → (NewPath s).Root = ['/']) := by
  obtain ⟨r, segs, hinv, heq⟩ := cleanPathString_structure s
  have hpath : (NewPath s).path = renderClean r segs := heq
  have hok : ∀ seg ∈ segs, seg ≠ [] ∧ '/' ∉ seg :=
    fun seg hs => ⟨(hinv.1 seg hs).1, (hinv.1 seg hs).2.2⟩
  constructor
  · intro hrel
    have hrF : r = false := by
      cases r with
      | false => rfl
      | true =>
        exfalso
        have habs : (NewPath s).IsAbsolute = true := by
          unfold Path.IsAbsolute
          rw [hpath]
          simp [renderClean]
        unfold Path.IsRelative at hrel
        rw [habs] at hrel
        exact absurd hrel (by decide)
    subst hrF
    unfold Path.Root
    rw [if_pos hrel]
    cases hsegs : segs with
    | nil =>
      have hdot : (NewPath s).path = ['.'] := by rw [hpath, hsegs]; rfl
      have hparts : (NewPath s).Parts = [['.']] := by
        unfold Path.Parts
        rw [hdot]
        decide
      rw [hparts]
      decide
    | cons x xs =>
      have hparts : (NewPath s).Parts = segs := by
        have := parts_render_false segs hinv (by rw [hsegs]; simp)
        unfold Path.Parts at this ⊢
        rw [hpath]
        exact this
      rw [hparts, ← rootLoop_eq]
      have hrlne : rootLoop segs ≠ [] := rootLoop_ne_nil segs (by rw [hsegs]; simp)
      have hrlinv : segsInv false (rootLoop segs) := rootLoop_segsInv segs (hsegs ▸ hinv)
      obtain ⟨y, ys, hyl⟩ : ∃ y ys, rootLoop segs = y :: ys := by
        cases h' : rootLoop segs with
        | nil => exact absurd h' hrlne
        | cons y ys => exact ⟨y, ys, rfl⟩
      have hrender : renderClean false (rootLoop segs) = joinSep '/' (rootLoop segs) := by
        rw [hyl]; simp [renderClean]
      have hclean : cleanPath (joinSep '/' (rootLoop segs)) = joinSep '/' (rootLoop segs) := by
        have := cleanPath_render_fixed false (rootLoop segs) hrlinv
        rwa [hrender] at this
      unfold filepathJoin
      have hdw : (rootLoop segs).dropWhile (· = ([] : List Char)) = rootLoop segs := by
        apply dropWhile_eq_self_of_head
        intro a ha
        have hmem : a ∈ rootLoop segs := List.mem_of_mem_head? ha
        exact decide_eq_false (hrlinv.1 a hmem).1
      rw [hdw, hyl]
      show cleanPath (joinSep '/' (y :: ys)) = joinSep '/' (y :: ys)
      rw [← hyl, hclean]
  · intro habs
    have hrT : r = true := by
      cases r with
      | true => rfl
      | false =>
        exfalso
        unfold Path.IsAbsolute at habs
        rw [hpath] at habs
        have hne : (renderClean false segs).head? ≠ some '/' := by
          cases hsegs : segs with
          | nil => decide
          | cons x xs =>
            have : renderClean false (x :: xs) = joinSep '/' (x :: xs) := by
              simp [renderClean]
            rw [this]
            intro hh
            exact joinSep_head?_ne_sep (x :: xs) (fun seg hs =>
              hok seg (hsegs ▸ hs)) '/' hh rfl
        exact hne (of_decide_eq_true habs)
    subst hrT
    unfold Path.Root
    have hrelF : (NewPath s).IsRelative = false := by
      unfold Path.IsRelative
      rw [habs]
      rfl
    rw [if_neg (by rw [hrelF]; exact Bool.noConfusion)]
    cases hsegs : segs with
    | nil =>
      have : (NewPath s).path = ['/'] := by rw [hpath, hsegs]; rfl
      rw [if_pos this, this]
    | cons x xs =>
      have hjne : joinSep '/' (x :: xs) ≠ [] :=
        joinSep_ne_nil '/' x xs (hok x (by rw [hsegs]; simp)).1
      have hpv : (NewPath s).path = '/' :: joinSep '/' (x :: xs) := by
        rw [hpath, hsegs]; rfl
      have hne : (NewPath s).path ≠ ['/'] := by
        rw [hpv]
        intro hcon
        apply hjne
        have := (List.cons.injEq _ _ _ _ ▸ hcon).2
        exact this
      rw [if_neg hne]
      have htw : (NewPath s).path.takeWhile (· ≠ '/') = [] := by
        rw [hpv, List.takeWhile_cons]
        simp
      rw [if_pos htw]

/-- Witness for claim C3 at the relative path `"../../x/y"` and the
absolute path `"/a/b"`. -/
theorem c3_root_spec_witness :
    ((NewPath ['.', '.', '/', '.', '.', '/', 'x', '/', 'y']).IsRelative = true ∧
      (NewPath ['.', '.', '/', '.', '.', '/', 'x', '/', 'y']).Root =
        joinSep '/' ((NewPath ['.', '.', '/', '.', '.', '/', 'x', '/', 'y']).Parts.takeWhile
            (· = ['.', '.']) ++
          ((NewPath ['.', '.', '/', '.', '.', '/', 'x', '/', 'y']).Parts.dropWhile
            (· = ['.', '.'])).take 1)) ∧
    ((NewPath ['/', 'a', '/', 'b']).IsAbsolute = true ∧
      (NewPath ['/', 'a', '/', 'b']).Root = ['/']) :=
  ⟨⟨by decide, (c3_root_spec ['.', '.', '/', '.', '.', '/', 'x', '/', 'y']).1 (by decide)⟩,
   ⟨by decide, (c3_root_spec ['/', 'a', '/', 'b']).2 (by decide)⟩⟩

/-! ### Claim C5: Parent/Base/Join coherence -/

/-- Claim C5, counterexample: for the Path built from `"./ a/b"` — whose
canonical form is `" a/b"` with a leading space in its first segment —
`Parent()` re-cleans `" a"` into `"a"` (the constructor trims surrounding
whitespace), so `Parent().Join(Base())` is `"a/b"`, not the original
value. -/
theorem c5_counterexample :
    (NewPath ['.', '/', ' ', 'a', '/', 'b']).path ≠ ['/'] ∧
    (NewPath ['.', '/', ' ', 'a', '/', 'b']).path ≠ ['.'] ∧
    (NewPath ['.', '/', ' ', 'a', '/', 'b']).path ≠ ['.', '.'] ∧
    (NewPath ['.', '/', ' ', 'a', '/', 'b']).Parent.JoinStrings
        [(NewPath ['.', '/', ' ', 'a', '/', 'b']).Base] ≠
      NewPath ['.', '/', ' ', 'a', '/', 'b'] :=
  ⟨by decide, by decide, by decide, by decide⟩

/-- Claim C5 (amended): for every value that is not the root and not `"."`
or `".."`, and none of whose segments begins or ends with a whitespace
character (whitespace at a segment edge can be trimmed away by the
re-normalization inside `Parent` and `Join`),
`Parent().Join(Base()) == self` after normalization. -/
theorem c5_parent_join_base (s : List Char)
    (h1 : (NewPath s).path ≠ ['/'])
    (h2 : (NewPath s).path ≠ ['.'])
    (h3 : (NewPath s).path ≠ ['.', '.'])
    (hws : ∀ seg ∈ (NewPath s).Parts,
      (seg.head?.all fun a => !goIsSpace a) = true ∧
      (seg.getLast?.all fun a => !goIsSpace a) = true) :
    (NewPath s).Parent.JoinStrings [(NewPath s).Base] = NewPath s := by
  obtain ⟨r, osegs, hinv, heq⟩ := cleanPathString_structure s
  have hpath : (NewPath s).path = renderClean r osegs := heq
  have hosegs_ne : osegs ≠ [] := by
    intro hnil
    subst hnil
    cases r with
    | true => exact h1 (by rw [hpath]; rfl)
    | false => exact h2 (by rw [hpath]; decide)
  obtain ⟨init, last, hdecomp⟩ : ∃ init last, init ++ [last] = osegs :=
    ⟨_, _, List.dropLast_append_getLast hosegs_ne⟩
  have hinv' : segsInv r (init ++ [last]) := by rw [hdecomp]; exact hinv
  have hlast_mem : last ∈ osegs := by rw [← hdecomp]; simp
  have hlast_ok := hinv.1 last hlast_mem
  have hparts : (NewPath s).Parts = osegs := by
    cases r with
    | true =>
      have := parts_render_true osegs hinv
      unfold Path.Parts at this ⊢
      rw [hpath]
      exact this
    | false =>
      have := parts_render_false osegs hinv hosegs_ne
      unfold Path.Parts at this ⊢
      rw [hpath]
      exact this
  rw [hparts] at hws
  have hbs : ∀ seg ∈ osegs, '\\' ∉ seg := by
    intro seg hs hmem
    have : '\\' ∈ cleanPathString s := by
      rw [heq]
      exact mem_renderClean_of_mem '\\' r osegs seg hmem hs
    exact backslash_not_mem_cleanPathString s this
  have hinv_init : segsInv r init := segsInv_append_left r init last hinv'
  have hinit_sub : ∀ seg ∈ init, seg ∈ osegs := by
    intro seg hs
    rw [← hdecomp]
    exact List.mem_append_left _ hs
  have hbase : (NewPath s).Base = last := by
    unfold Path.Base
    rw [hpath, ← hdecomp]
    cases hin : init with
    | nil =>
      cases r with
      | true =>
        rw [show renderClean true ([] ++ [last]) = [] ++ '/' :: last from rfl]
        exact filepathBase_append_sep [] last hlast_ok.1 hlast_ok.2.2
      | false =>
        rw [show ([] ++ [last] : List (List Char)) = [last] from rfl]
        rw [show renderClean false [last] = last from by simp [renderClean, joinSep]]
        exact filepathBase_no_sep_self last hlast_ok.1 hlast_ok.2.2
    | cons i is =>
      rw [← hin]
      have hinne : init ≠ [] := by rw [hin]; simp
      cases r with
      | true =>
        rw [renderClean_append_rooted init last hinne]
        exact filepathBase_append_sep _ last hlast_ok.1 hlast_ok.2.2
      | false =>
        rw [renderClean_append_unrooted init last hinne]
        exact filepathBase_append_sep _ last hlast_ok.1 hlast_ok.2.2
  have hparent : (NewPath s).Parent = Path.mk (renderClean r init) := by
    unfold Path.Parent
    have hdir : filepathDir (NewPath s).path = renderClean r init := by
      rw [hpath, ← hdecomp]
      exact filepathDir_render r init last hinv'
    rw [hdir]
    unfold NewPath
    rw [cleanPathString_render_fixed r init hinv_init
      (fun seg hs => hbs seg (hinit_sub seg hs))
      (fun seg hs => hws seg (hinit_sub seg hs))]
  rw [hparent, hbase]
  unfold Path.JoinStrings
  have hrne : renderClean r init ≠ [] := renderClean_ne_nil r init hinv_init
  have hjoin1 : filepathJoin [renderClean r init, last] =
      cleanPath (renderClean r init ++ '/' :: last) := by
    unfold filepathJoin
    have hdw : ([renderClean r init, last] : List (List Char)).dropWhile (· = []) =
        [renderClean r init, last] := by
      apply dropWhile_eq_self_of_head
      intro a ha
      have haeq : a = renderClean r init := by injection ha with h'; exact h'.symm
      rw [haeq]
      exact decide_eq_false hrne
    rw [hdw]
    rfl
  have hkey : cleanPath (renderClean r init ++ '/' :: last) = renderClean r osegs := by
    cases hin : init with
    | nil =>
      have hone : osegs = [last] := by rw [← hdecomp, hin]; rfl
      cases r with
      | true =>
        rw [show renderClean true [] ++ '/' :: last = '/' :: ('/' :: last) from rfl]
        rw [cleanPath_rooted, splitOnChar_cons_sep, splitOnChar_no_sep '/' last hlast_ok.2.2]
        rw [cleanSegsAux_skip_head_nil, cleanSegsAux_skip_head_nil]
        rw [cleanSegsAux_fixed true [last] [] ?_]
        · rw [hone]; rfl
        · refine ⟨?_, List.pairwise_singleton _ _, ?_⟩
          · intro seg hs
            have : seg = last := by simpa using hs
            rw [this]
            exact hlast_ok
          · intro _ seg hs
            have : seg = last := by simpa using hs
            rw [this]
            exact hinv.2.2 rfl last hlast_mem
      | false =>
        rw [show renderClean false [] ++ '/' :: last = '.' :: ('/' :: last) from rfl]
        rw [cleanPath_not_rooted '.' _ (by decide)]
        rw [show ('.' :: ('/' :: last)) = ['.'] ++ '/' :: last from rfl]
        rw [splitOnChar_append_sep '/' ['.'] last (by decide)]
        rw [splitOnChar_no_sep '/' last hlast_ok.2.2]
        rw [cleanSegsAux_cons, if_pos (Or.inr rfl)]
        rw [cleanSegsAux_fixed false [last] [] ?_]
        · rw [hone]; rfl
        · refine ⟨?_, List.pairwise_singleton _ _, by simp⟩
          intro seg hs
          have : seg = last := by simpa using hs
          rw [this]
          exact hlast_ok
    | cons i is =>
      rw [← hin]
      have hinne : init ≠ [] := by rw [hin]; simp
      cases r with
      | true =>
        have hr : renderClean true init ++ '/' :: last = renderClean true (init ++ [last]) := by
          rw [renderClean_append_rooted init last hinne]
          rfl
        rw [hr, hdecomp]
        exact cleanPath_render_fixed true osegs hinv
      | false =>
        have hrr : renderClean false init = joinSep '/' init := by
          rw [hin]
          simp [renderClean]
        have hr : renderClean false init ++ '/' :: last = renderClean false (init ++ [last]) := by
          rw [hrr, renderClean_append_unrooted init last hinne]
        rw [hr, hdecomp]
        exact cleanPath_render_fixed false osegs hinv
  rw [hjoin1, hkey]
  unfold NewPath
  rw [cleanPathString_render_fixed r osegs hinv hbs hws]
  rw [← heq]

/-- Witness for claim C5 at the path `"/a/b c/d.txt"` (whose middle
segment contains an interior space). -/
theorem c5_parent_join_base_witness :
    ((NewPath ['/', 'a', '/', 'b', ' ', 'c', '/', 'd']).path ≠ ['/'] ∧
      (NewPath ['/', 'a', '/', 'b', ' ', 'c', '/', 'd']).path ≠ ['.'] ∧
      (NewPath ['/', 'a', '/', 'b', ' ', 'c', '/', 'd']).path ≠ ['.', '.']) ∧
    (NewPath ['/', 'a', '/', 'b', ' ', 'c', '/', 'd']).Parent.JoinStrings
        [(NewPath ['/', 'a', '/', 'b', ' ', 'c', '/', 'd']).Base] =
      NewPath ['/', 'a', '/', 'b', ' ', 'c', '/', 'd'] :=
  ⟨⟨by decide, by decide, by decide⟩,
   c5_parent_join_base ['/', 'a', '/', 'b', ' ', 'c', '/', 'd']
     (by decide) (by decide) (by decide) (by decide)⟩

/-! ### Claim C7: canonical-form invariant -/

theorem chain'_of_no_sep (x : List Char) (h : '/' ∉ x) :
    List.Chain' (fun a b => ¬(a = '/' ∧ b = '/')) x := by
  induction x with
  | nil => exact List.chain'_nil
  | cons a as ih =>
    have ha : a ≠ '/' := fun h' => h (by simp [h'])
    have has : '/' ∉ as := fun h' => h (List.mem_cons_of_mem a h')
    cases as with
    | nil => exact List.chain'_singleton a
    | cons b bs =>
      rw [List.chain'_cons]
      exact ⟨fun hc => ha hc.1, ih has⟩

theorem joinSep_chain' (segs : List (List Char))
    (h : ∀ s ∈ segs, s ≠ [] ∧ '/' ∉ s) :
    List.Chain' (fun a b => ¬(a = '/' ∧ b = '/')) (joinSep '/' segs) := by
  induction segs with
  | nil => exact List.chain'_nil
  | cons x xs ih =>
    cases xs with
    | nil => exact chain'_of_no_sep x (h x (by simp)).2
    | cons y ys =>
      show List.Chain' _ (x ++ '/' :: joinSep '/' (y :: ys))
      rw [List.chain'_append]
      refine ⟨chain'_of_no_sep x (h x (by simp)).2, ?_, ?_⟩
      · rw [List.chain'_cons']
        refine ⟨?_, ih (fun s hs => h s (List.mem_cons_of_mem x hs))⟩
        intro b hb
        have hbh : (joinSep '/' (y :: ys)).head? = y.head? :=
          joinSep_head? '/' y ys (h y (by simp)).1
        rw [hbh] at hb
        have : b ∈ y := List.mem_of_mem_head? hb
        exact fun hc => (h y (by simp)).2 (hc.2 ▸ this)
      · intro a ha b hb
        have : a ∈ x := getLast?_mem' x a ha
        exact fun hc => (h x (by simp)).2 (hc.1 ▸ this)

/-- Claim C7: the canonical string stored by `NewPath` (through which
every Path-producing operation of the library funnels) never contains
doubled separators — no two adjacent characters are both `'/'` — and
never ends with a separator unless it is exactly the root `"/"`. -/
theorem c7_canonical_invariant (s : List Char) :
    List.Chain' (fun a b => ¬(a = '/' ∧ b = '/')) (NewPath s).path ∧
    ((NewPath s).path.getLast? = some '/' → (NewPath s).path = ['/']) := by
  obtain ⟨r, segs, hinv, heq⟩ := cleanPathString_structure s
  have hpath : (NewPath s).path = renderClean r segs := heq
  rw [hpath]
  have hok : ∀ seg ∈ segs, seg ≠ [] ∧ '/' ∉ seg :=
    fun seg hs => ⟨(hinv.1 seg hs).1, (hinv.1 seg hs).2.2⟩
  constructor
  · cases r with
    | true =>
      show List.Chain' _ ('/' :: joinSep '/' segs)
      rw [List.chain'_cons']
      refine ⟨?_, joinSep_chain' segs hok⟩
      intro b hb
      cases segs with
      | nil => simp [joinSep] at hb
      | cons x xs =>
        rw [joinSep_head? '/' x xs (hok x (by simp)).1] at hb
        have : b ∈ x := List.mem_of_mem_head? hb
        exact fun hc => (hok x (by simp)).2 (hc.2 ▸ this)
    | false =>
      cases segs with
      | nil => exact List.chain'_singleton '.'
      | cons x xs =>
        have : renderClean false (x :: xs) = joinSep '/' (x :: xs) := by
          simp [renderClean]
        rw [this]
        exact joinSep_chain' (x :: xs) hok
  · intro hlast
    cases r with
    | true =>
      cases segs with
      | nil => rfl
      | cons x xs =>
        exfalso
        have hj : joinSep '/' (x :: xs) ≠ [] := joinSep_ne_nil '/' x xs (hok x (by simp)).1
        have h1 : (renderClean true (x :: xs)).getLast? = (joinSep '/' (x :: xs)).getLast? := by
          show ('/' :: joinSep '/' (x :: xs)).getLast? = _
          have hrw : '/' :: joinSep '/' (x :: xs) = ['/'] ++ joinSep '/' (x :: xs) := rfl
          rw [hrw, getLast?_append_right _ _ hj]
        obtain ⟨t, ht, hteq⟩ := joinSep_getLast?_mem '/' (x :: xs)
          (fun s hs => (hok s hs).1) (by simp)
        rw [h1, hteq] at hlast
        exact (hok t ht).2 (getLast?_mem' t '/' hlast)
    | false =>
      cases segs with
      | nil => exact absurd hlast (by decide)
      | cons x xs =>
        exfalso
        have hrc : renderClean false (x :: xs) = joinSep '/' (x :: xs) := by
          simp [renderClean]
        rw [hrc] at hlast
        obtain ⟨t, ht, hteq⟩ := joinSep_getLast?_mem '/' (x :: xs)
          (fun s hs => (hok s hs).1) (by simp)
        rw [hteq] at hlast
        exact (hok t ht).2 (getLast?_mem' t '/' hlast)

/-- Witness for claim C7 at the inputs `"//a"` (doubled separator) and
`"//"` (which normalizes to the bare root). -/
theorem c7_canonical_invariant_witness :
    List.Chain' (fun a b => ¬(a = '/' ∧ b = '/')) (NewPath ['/', '/', 'a']).path ∧
    ((NewPath ['/', '/']).path.getLast? = some '/' ∧ (NewPath ['/', '/']).path = ['/']) :=
  ⟨(c7_canonical_invariant ['/', '/', 'a']).1,
   by decide, (c7_canonical_invariant ['/', '/']).2 (by decide)⟩

/-! ### Claim C8: the boolean probes swallow stat errors -/

/-- Claim C8: for every filesystem outcome and path, a failing stat —
not-found or any other error — classifies as `pathCheckNoExist`, so the
boolean probes `Exists`, `IsFile` and `IsDir` all return `false` rather
than surfacing an error. -/
theorem c8_probes_swallow_errors (fs : List Char → StatOutcome) (p : Path)
    (h : fs p.path = .errNotExist ∨ fs p.path = .errOther) :
    pathCheck fs p = pathCheckNoExist ∧
    Path.Exists fs p = false ∧ Path.IsFile fs p = false ∧ Path.IsDir fs p = false := by
  have hpc : pathCheck fs p = pathCheckNoExist := by
    unfold pathCheck
    rcases h with h | h <;> rw [h]
  refine ⟨hpc, ?_, ?_, ?_⟩ <;>
    simp [Path.Exists, Path.IsFile, Path.IsDir, hpc, pathCheckNoExist, pathCheckFile,
      pathCheckDir]

/-- Witness for claim C8 at a concrete path and an `errOther` stat. -/
theorem c8_probes_swallow_errors_witness :
    pathCheck (fun _ => .errOther) (NewPath ['a']) = pathCheckNoExist ∧
    Path.Exists (fun _ => .errOther) (NewPath ['a']) = false ∧
    Path.IsFile (fun _ => .errOther) (NewPath ['a']) = false ∧
    Path.IsDir (fun _ => .errOther) (NewPath ['a']) = false :=
  c8_probes_swallow_errors (fun _ => .errOther) (NewPath ['a']) (Or.inr rfl)

/-! ### Claim C9: Glob preconditions -/

/-- Claim C9: `Glob` fails with an error (returning no matches) whenever
the pattern is blank or the receiver is not an existing directory, and
delegates to the one-level `filepath.Glob` match exactly when both
preconditions hold. -/
theorem c9_glob_preconditions (fs : List Char → StatOutcome)
    (globFs : List Char → Option (List (List Char))) (p : Path) (pattern : List Char) :
    ((trimSpace pattern = [] ∨ pathCheck fs p ≠ pathCheckDir) →
      ∃ e, Path.Glob fs globFs p pattern = .error e) ∧
    (trimSpace pattern ≠ [] → pathCheck fs p = pathCheckDir →
      Path.Glob fs globFs p pattern =
        match globFs (filepathJoin [p.path, pattern]) with
        | none => .error .badPattern
        | some ms => .ok (ms.map NewPath)) := by
  constructor
  · intro hfail
    by_cases hb : trimSpace pattern = []
    · exact ⟨.emptyPattern, by simp [Path.Glob, nativeGlob, hb]⟩
    · have hnd : pathCheck fs p ≠ pathCheckDir := by
        rcases hfail with h | h
        · exact absurd h hb
        · exact h
      by_cases hex : pathCheck fs p = pathCheckNoExist
      · refine ⟨.notExist, ?_⟩
        simp [Path.Glob, nativeGlob, hb, Path.Exists, hex]
      · refine ⟨.notDir, ?_⟩
        simp [Path.Glob, nativeGlob, hb, Path.Exists, Path.IsDir, hex, hnd]
  · intro hb hd
    have hex : ¬(Path.Exists fs p = false) := by
      simp [Path.Exists, hd, pathCheckDir, pathCheckNoExist]
    have hdir : ¬(Path.IsDir fs p = false) := by
      simp [Path.IsDir, hd]
    have hng : nativeGlob fs globFs p pattern =
        match globFs (filepathJoin [p.path, pattern]) with
        | none => .error .badPattern
        | some ms => .ok ms := by
      unfold nativeGlob
      rw [if_neg hb, if_neg hex, if_neg hdir]
    unfold Path.Glob
    rw [hng]
    cases globFs (filepathJoin [p.path, pattern]) <;> rfl

/-- Witness for claim C9: a non-existing receiver fails, and an existing
directory with a non-blank pattern delegates to the native matches. -/
theorem c9_glob_preconditions_witness :
    (∃ e, Path.Glob (fun _ => .errNotExist) (fun _ => some []) (NewPath ['a']) ['*'] =
      .error e) ∧
    Path.Glob (fun _ => .found true) (fun _ => some [['a', '/', 'x']]) (NewPath ['a']) ['*'] =
      .ok [NewPath ['a', '/', 'x']] :=
  ⟨(c9_glob_preconditions (fun _ => .errNotExist) (fun _ => some [])
      (NewPath ['a']) ['*']).1 (Or.inr (by decide)),
   (c9_glob_preconditions (fun _ => .found true) (fun _ => some [['a', '/', 'x']])
      (NewPath ['a']) ['*']).2 (by decide) (by decide)⟩

/-! ### Claim C10: RelativeTo returns the `"."` path on error -/

/-- Claim C10: whenever `RelativeTo` reports an error, the returned path
is still a proper value, namely `NewPath` of Go's empty error result,
whose canonical string is `"."`. -/
theorem c10_relativeTo_error_dot (p o : Path)
    (h : (p.RelativeTo o).2 = true) : ((p.RelativeTo o).1).path = ['.'] := by
  unfold Path.RelativeTo at *
  cases hrel : filepathRel o.path p.path with
  | some rp => rw [hrel] at h; simp at h
  | none => decide

/-- Witness for claim C10 at the failing pair `p = "a"`, `o = "/b"`. -/
theorem c10_relativeTo_error_dot_witness :
    ((NewPath ['a']).RelativeTo (NewPath ['/', 'b'])).2 = true ∧
    (((NewPath ['a']).RelativeTo (NewPath ['/', 'b'])).1).path = ['.'] :=
  ⟨by decide, c10_relativeTo_error_dot (NewPath ['a']) (NewPath ['/', 'b']) (by decide)⟩

end GoPathlib
